import Mathlib

/-!
Verification development for the PDF-Genius ingestion and query pipeline.

JavaScript strings are modelled as `List Char` (`Str`), buffers as `List Nat`
(byte values), numbers as `Nat`/`Int`/`ℚ` as appropriate, promises whose only
observable behaviour is success or failure as `Except JsError`.  External
network calls (the PDF parser, the embedding provider, the generation models,
the vector-store backend) are passed in as explicit parameters, so the
definitions below close over them exactly where the source awaits them.
-/

namespace PdfGenius

/-- JavaScript strings, modelled as lists of characters. -/
abbrev Str := List Char

/-- The character class `\s` of JavaScript regular expressions (and the set
stripped by `String.prototype.trim`): tab, LF, VT, FF, CR, space, NBSP, and
the Unicode whitespace code points, including U+FEFF. -/
def isJsWs (c : Char) : Bool :=
  let n := c.toNat
  n == 9 || n == 10 || n == 11 || n == 12 || n == 13 || n == 32 || n == 160 ||
    n == 5760 || (8192 ≤ n && n ≤ 8202) || n == 8232 || n == 8233 ||
    n == 8239 || n == 8287 || n == 12288 || n == 65279

/-- The character class `[\x00-\x08\x0B\x0C\x0E-\x1F\x7F]` removed by
`cleanText` in `src/lib/pdf-processor-improved.ts`. -/
def isCtrlRemoved (c : Char) : Bool :=
  let n := c.toNat
  n ≤ 8 || n == 11 || n == 12 || (14 ≤ n && n ≤ 31) || n == 127

/-- The class `[.!?]` of sentence-terminating punctuation. -/
def isTermChar (c : Char) : Bool :=
  c == '.' || c == '!' || c == '?'

/-- The class `[A-Z]`. -/
def isUpperAZ (c : Char) : Bool :=
  65 ≤ c.toNat && c.toNat ≤ 90

/-- `String.prototype.trim`: drop leading and trailing whitespace. -/
def jsTrim (s : Str) : Str :=
  ((s.dropWhile isJsWs).reverse.dropWhile isJsWs).reverse

/-- Worker for `replace(/\s+/g, " ")`: the flag records whether the previous
character belonged to a whitespace run (whose single replacement space has
already been emitted). -/
def collapseWsAux : Bool → Str → Str
  | _, [] => []
  | prevWs, c :: r =>
    if isJsWs c then
      if prevWs then collapseWsAux true r else ' ' :: collapseWsAux true r
    else c :: collapseWsAux false r

/-- `replace(/\s+/g, " ")`: every maximal whitespace run becomes one space. -/
def collapseWs (s : Str) : Str := collapseWsAux false s

/-- `replace(/[\x00-\x08\x0B\x0C\x0E-\x1F\x7F]/g, "")`. -/
def removeCtrl (s : Str) : Str := s.filter (fun c => !(isCtrlRemoved c))

/-- `replace(/\r\n/g, "\n")`: each occurrence of CR immediately followed by
LF becomes a single LF; any other character is kept. -/
def replaceCRLF : Str → Str
  | [] => []
  | [c] => [c]
  | c :: d :: r =>
    if c = '\r' ∧ d = '\n' then '\n' :: replaceCRLF r
    else c :: replaceCRLF (d :: r)

/-- `replace(/\r/g, "\n")`. -/
def mapCR (s : Str) : Str := s.map (fun c => if c = '\r' then '\n' else c)

/-- Worker for `replace(/\n{3,}/g, "\n\n")`: `run` counts the newlines of the
current run that have been kept; a run of three or more newlines therefore
contributes exactly two. -/
def collapseNL3Aux : Nat → Str → Str
  | run, c :: r =>
    if c = '\n' then
      if run < 2 then '\n' :: collapseNL3Aux (run + 1) r else collapseNL3Aux run r
    else c :: collapseNL3Aux 0 r
  | _, [] => []

/-- `replace(/\n{3,}/g, "\n\n")`. -/
def collapseNL3 (s : Str) : Str := collapseNL3Aux 0 s

/-- `cleanText` from `src/lib/pdf-processor-improved.ts`: collapse whitespace,
strip control characters, normalise line breaks, bound newline runs, trim.
The leading guard mirrors `if (!text || typeof text !== "string") return ""`
(`typeof` is vacuous in this embedding). -/
def cleanText (text : Str) : Str :=
  if text = [] then []
  else jsTrim (collapseNL3 (mapCR (replaceCRLF (removeCtrl (collapseWs text)))))

/-- Worker for `split` with a run regex such as `/\s+/` or `/[.!?]+/`: pieces
lie between maximal runs of separator characters.  `inSep` records that the
scanner is inside a separator run (the piece before it has been emitted);
`piece` accumulates the current piece in reverse.  JavaScript emits an empty
piece for a leading or trailing run, which the `[]` cases reproduce. -/
def jsSplitRunsAux (p : Char → Bool) : Str → Bool → Str → List Str
  | [], true, _ => [[]]
  | [], false, piece => [piece.reverse]
  | c :: r, true, _ =>
    if p c then jsSplitRunsAux p r true [] else jsSplitRunsAux p r false [c]
  | c :: r, false, piece =>
    if p c then piece.reverse :: jsSplitRunsAux p r true []
    else jsSplitRunsAux p r false (c :: piece)

/-- `split(/\s+/)`. -/
def splitWs (s : Str) : List Str := jsSplitRunsAux isJsWs s false []

/-- `split(/[.!?]+/)` of the legacy processor. -/
def splitTermRuns (s : Str) : List Str := jsSplitRunsAux isTermChar s false []

/-- Worker for `split(" ")` of the legacy processor: every single occurrence
of the separator character ends a piece. -/
def jsSplitCharAux (sep : Char) : Str → Str → List Str
  | [], piece => [piece.reverse]
  | c :: r, piece =>
    if c = sep then piece.reverse :: jsSplitCharAux sep r []
    else jsSplitCharAux sep r (c :: piece)

/-- `split(" ")`. -/
def jsSplitChar (sep : Char) (s : Str) : List Str := jsSplitCharAux sep s []

/-- `Array.prototype.join(" ")`. -/
def joinSpace : List Str → Str
  | [] => []
  | [w] => w
  | w :: x :: ws => w ++ ' ' :: joinSpace (x :: ws)

/-- `Array.prototype.slice(-k)`: the last `k` elements — except that
JavaScript's `-0` is `0`, so `k = 0` yields the whole array. -/
def jsSliceNeg (l : List α) (k : Nat) : List α :=
  if k = 0 then l else l.drop (l.length - k)

/-- Worker for `split(/(?<=[.!?])\s+(?=[A-Z])/)` of the improved chunker: the
pattern matches a maximal whitespace run that immediately follows `[.!?]` and
is immediately followed by `[A-Z]` (inner backtracking positions of `\s+` face
a whitespace lookahead character and fail, so only the maximal run matches).
The fuel argument bounds the number of characters consumed and
`text.length + 1` is always sufficient. -/
def splitSentencesAux : Nat → Str → Str → List Str
  | 0, _, piece => [piece.reverse]
  | _ + 1, [], piece => [piece.reverse]
  | fuel + 1, c :: rest, piece =>
    if isTermChar c then
      let run := rest.takeWhile isJsWs
      if run.isEmpty then splitSentencesAux fuel rest (c :: piece)
      else
        let rest2 := rest.dropWhile isJsWs
        match rest2 with
        | d :: _ =>
          if isUpperAZ d then (c :: piece).reverse :: splitSentencesAux fuel rest2 []
          else splitSentencesAux fuel rest (c :: piece)
        | [] => splitSentencesAux fuel rest (c :: piece)
    else splitSentencesAux fuel rest (c :: piece)

/-- Sentence segmentation of the improved chunker. -/
def splitSentences (text : Str) : List Str :=
  splitSentencesAux (text.length + 1) text []

/-- A chunk produced by either text chunker (`ProcessedChunk` in the source). -/
structure ProcessedChunk where
  text : Str
  pageNumber : Nat
  chunkIndex : Nat
deriving DecidableEq, Repr

/-- Total characters of the already-emitted chunks
(`chunks.reduce((sum, chunk) => sum + chunk.text.length, 0)`). -/
def sumLen (cs : List ProcessedChunk) : Nat :=
  (cs.map (fun c => c.text.length)).sum

/-- Loop state of `splitTextIntoChunks`: emitted chunks, the running buffer
`currentChunk`, `currentChunkIndex` and `currentPageNumber`. -/
structure ChunkAcc where
  chunks : List ProcessedChunk
  cur : Str
  idx : Nat
  page : Nat
deriving Repr

/-- `const overlapText = words.slice(-overlapWords).join(" ")` where
`words = currentChunk.split(/\s+/)` and
`overlapWords = Math.min(Math.floor(overlap / 6), words.length)`. -/
def overlapTextOf (cur : Str) (overlap : Nat) : Str :=
  joinSpace (jsSliceNeg (splitWs cur) (min (overlap / 6) (splitWs cur).length))

/-- `currentChunk = overlapText ? overlapText + " " + sentence : sentence`. -/
def chunkNewCur (overlapText sentence : Str) : Str :=
  if overlapText.isEmpty then sentence else overlapText ++ ' ' :: sentence

/-- Rebuild the loop state with the page-number re-estimation that closes
every iteration: `currentPageNumber = Math.max(1,
Math.ceil(totalCharsProcessed / avgCharsPerPage))` with
`totalCharsProcessed` the emitted chunks' characters plus the buffer's and
`avgCharsPerPage = 2500`. -/
def chunkMkPage (chunks : List ProcessedChunk) (cur : Str) (idx : Nat) : ChunkAcc :=
  ChunkAcc.mk chunks cur idx (max 1 ((sumLen chunks + cur.length + 2499) / 2500))

/-- One iteration of the improved `splitTextIntoChunks` loop over a sentence:
skip blank sentences; flush the buffer (with trailing-word overlap seeding
and `chunkIndex` increment) when appending the trimmed sentence would exceed
`chunkSize` and the buffer is nonempty; otherwise append the sentence; then
re-estimate the page number. -/
def chunkStep (chunkSize overlap : Nat) (st : ChunkAcc) (s : Str) : ChunkAcc :=
  if (jsTrim s).isEmpty then st
  else if st.cur.length + (jsTrim s).length + 1 > chunkSize ∧ st.cur.length > 0 then
    chunkMkPage (st.chunks ++ [⟨jsTrim st.cur, st.page, st.idx⟩])
      (chunkNewCur (overlapTextOf st.cur overlap) (jsTrim s)) (st.idx + 1)
  else
    chunkMkPage st.chunks
      (if st.cur.isEmpty then jsTrim s else st.cur ++ ' ' :: jsTrim s) st.idx

/-- `splitTextIntoChunks` from `src/lib/pdf-processor-improved.ts`.  The guard
`!text || text.trim().length === 0` collapses to emptiness of the trimmed
text.  `avgCharsPerPage` is the constant 2500. -/
def splitTextIntoChunks (text : Str) (chunkSize overlap : Nat) :
    List ProcessedChunk :=
  if (jsTrim text).isEmpty then []
  else
    let sentences := (splitSentences text).filter (fun s => !(jsTrim s).isEmpty)
    let st := sentences.foldl (chunkStep chunkSize overlap) (ChunkAcc.mk [] [] 0 1)
    if !(jsTrim st.cur).isEmpty then st.chunks ++ [⟨jsTrim st.cur, st.page, st.idx⟩]
    else st.chunks

/-- One iteration of the legacy `splitTextIntoChunks` loop
(`src/lib/pdf-processor.ts`): overlap words come from `split(" ")` and
`slice(-floor(overlap/6))` with an unconditional joining space, and the page
number bumps when `currentChunk.length > 2000 * currentPageNumber`. -/
def oldChunkStep (chunkSize overlap : Nat) (st : ChunkAcc) (s : Str) : ChunkAcc :=
  let sentence := jsTrim s
  if sentence.isEmpty then st
  else
    let st' :=
      if st.cur.length + sentence.length + 1 > chunkSize ∧ st.cur.length > 0 then
        let pushed := st.chunks ++ [⟨jsTrim st.cur, st.page, st.idx⟩]
        let words := jsSplitChar ' ' st.cur
        let overlapWords := jsSliceNeg words (overlap / 6)
        ChunkAcc.mk pushed (joinSpace overlapWords ++ ' ' :: sentence)
          (st.idx + 1) st.page
      else
        ChunkAcc.mk st.chunks
          (if st.cur.isEmpty then sentence else st.cur ++ ' ' :: sentence)
          st.idx st.page
    if st'.cur.length > 2000 * st'.page then
      ChunkAcc.mk st'.chunks st'.cur st'.idx (st'.page + 1)
    else st'

/-- `splitTextIntoChunks` from the legacy `src/lib/pdf-processor.ts` (no empty
guard; sentences split on `/[.!?]+/`). -/
def oldSplitTextIntoChunks (text : Str) (chunkSize overlap : Nat) :
    List ProcessedChunk :=
  let sentences := (splitTermRuns text).filter (fun s => !(jsTrim s).isEmpty)
  let st := sentences.foldl (oldChunkStep chunkSize overlap) (ChunkAcc.mk [] [] 0 1)
  if !(jsTrim st.cur).isEmpty then st.chunks ++ [⟨jsTrim st.cur, st.page, st.idx⟩]
  else st.chunks

/-- Decimal digit character, for rendering numbers as JavaScript template
literals do. -/
def digitChar : Nat → Char
  | 0 => '0' | 1 => '1' | 2 => '2' | 3 => '3' | 4 => '4'
  | 5 => '5' | 6 => '6' | 7 => '7' | 8 => '8' | _ => '9'

/-- Worker for decimal rendering; the fuel bounds the number of divisions and
`n + 1` is always sufficient. -/
def natDigitsAux : Nat → Nat → Str
  | 0, _ => []
  | fuel + 1, n =>
    if n < 10 then [digitChar n]
    else natDigitsAux fuel (n / 10) ++ [digitChar (n % 10)]

/-- Decimal rendering of a number, as `${n}` in a template literal. -/
def natDigits (n : Nat) : Str := natDigitsAux (n + 1) n

/-- The class `[a-zA-Z0-9.-]` kept by filename sanitisation. -/
def isFileNameSafe (c : Char) : Bool :=
  (97 ≤ c.toNat && c.toNat ≤ 122) || (65 ≤ c.toNat && c.toNat ≤ 90) ||
    (48 ≤ c.toNat && c.toNat ≤ 57) || c == '.' || c == '-'

/-- `fileName.replace(/[^a-zA-Z0-9.-]/g, "_")`. -/
def sanitizeFileName (fileName : Str) : Str :=
  fileName.map (fun c => if isFileNameSafe c then c else '_')

/-- `generateChunkId` from `src/lib/pdf-processor-improved.ts`:
`` `${userId}-${sanitizedFileName}-${chunkIndex}-${timestamp}` `` with the
`Date.now()` timestamp passed explicitly. -/
def generateChunkId (userId fileName : Str) (chunkIndex : Nat) (now : Nat) :
    Str :=
  userId ++ ('-' :: (sanitizeFileName fileName ++
    ('-' :: (natDigits chunkIndex ++ ('-' :: natDigits now)))))

/-- Node's `buffer.toString("ascii")` decoding of one byte: the high bit is
unset, then the value is read as a code point. -/
def asciiDecodeByte (b : Nat) : Char := Char.ofNat (b % 128)

/-- `buffer.toString("ascii", 0, 4)`. -/
def asciiHeader (buffer : List Nat) : Str :=
  (buffer.take 4).map asciiDecodeByte

/-- `validatePDFBuffer` from `src/lib/pdf-processor-improved.ts`; `some err`
is the `{isValid: false, error: err}` outcome and `none` is a valid buffer. -/
def validatePDFBuffer (buffer : List Nat) : Option Str :=
  if buffer = [] then some "Empty or invalid buffer".toList
  else if buffer.length < 100 then
    some "File too small to be a valid PDF".toList
  else if asciiHeader buffer ≠ "%PDF".toList then
    some "Invalid PDF file format".toList
  else none

/-- A JavaScript error as the gemini module inspects it: an optional HTTP
status and a message. -/
structure JsError where
  status : Option Nat
  message : Str
deriving DecidableEq, Repr

/-- An error carrying only a message, as `new Error(msg)`. -/
def strErr (msg : String) : JsError := ⟨none, msg.toList⟩

/-- `String.prototype.startsWith` on the head of a string. -/
def strStartsWith : Str → Str → Bool
  | _, [] => true
  | [], _ :: _ => false
  | c :: r, d :: q => c == d && strStartsWith r q

/-- `String.prototype.includes`: contiguous substring containment. -/
def strContains : Str → Str → Bool
  | [], pat => pat.isEmpty
  | c :: r, pat => strStartsWith (c :: r) pat || strContains r pat

/-- `extractTextFromPDF` from `src/lib/pdf-processor-improved.ts`.  The
`pdf-parse` network-free library call is the explicit `parse` outcome; the
outer catch prefixes every failure with `PDF text extraction failed: `. -/
def extractTextFromPDF (buffer : List Nat) (parse : Except JsError Str) :
    Except JsError Str :=
  let wrap : Str → JsError := fun m =>
    ⟨none, "PDF text extraction failed: ".toList ++ m⟩
  if buffer = [] then .error (wrap "Invalid or empty PDF buffer".toList)
  else if asciiHeader buffer ≠ "%PDF".toList then
    .error (wrap "Invalid PDF file: Missing PDF header".toList)
  else
    match parse with
    | .ok text =>
      if !(jsTrim text).isEmpty then .ok text
      else .error (wrap ("Failed to extract text from PDF. The file might " ++
        "be password protected, corrupted, or contain only images.").toList)
    | .error e => .error (wrap e.message)

/-- The catch block of `processPDFToChunks`, which rewrites recognised
messages. -/
def processCatch (e : JsError) : JsError :=
  if strContains e.message "Invalid PDF".toList then
    strErr "The uploaded file is not a valid PDF document"
  else if strContains e.message "password".toList then
    strErr "This PDF is password protected and cannot be processed"
  else if strContains e.message "ENOENT".toList then
    strErr "PDF processing library configuration issue. Please try again or contact support."
  else e

/-- The try block of `processPDFToChunks` (improved processor): input
validation, extraction, cleaning, chunking, chunk filtering. -/
def processPDFToChunksRaw (buffer : List Nat) (chunkSize overlap : Int)
    (parse : Except JsError Str) : Except JsError (List ProcessedChunk) :=
  if buffer = [] then .error (strErr "Invalid PDF buffer provided")
  else if chunkSize < 100 ∨ chunkSize > 10000 then
    .error (strErr "Chunk size must be between 100 and 10000 characters")
  else if overlap < 0 ∨ overlap ≥ chunkSize then
    .error (strErr "Overlap must be between 0 and chunk size")
  else
    match extractTextFromPDF buffer parse with
    | .error e => .error e
    | .ok text =>
      if text.length = 0 then .error (strErr "No text content found in PDF")
      else
        let cleanedText := cleanText text
        if cleanedText.length = 0 then
          .error (strErr "No valid text content after cleaning")
        else
          let chunks := splitTextIntoChunks cleanedText chunkSize.toNat overlap.toNat
          if chunks = [] then
            .error (strErr "Failed to create text chunks from PDF content")
          else
            let validChunks := chunks.filter (fun c => !(jsTrim c.text).isEmpty)
            if validChunks = [] then .error (strErr "All created chunks are empty")
            else .ok validChunks

/-- `processPDFToChunks` from `src/lib/pdf-processor-improved.ts`: the try
block wrapped by its message-rewriting catch.  The numeric parameters are
integers so the `overlap < 0` check is meaningful; they are passed to the
chunker after validation has established they are non-negative. -/
def processPDFToChunks (buffer : List Nat) (chunkSize overlap : Int)
    (parse : Except JsError Str) : Except JsError (List ProcessedChunk) :=
  (processPDFToChunksRaw buffer chunkSize overlap parse).mapError processCatch

/-- `error?.status === 503 || error?.status === 429 ||
error?.message?.includes('overloaded')` from `retryWithBackoff`. -/
def isRetryable (e : JsError) : Bool :=
  e.status == some 503 || e.status == some 429 ||
    strContains e.message "overloaded".toList

/-- Worker for `retryWithBackoff`.  `fn` gives the outcome of each attempt
(attempts are numbered from 1); `remaining` counts the attempts left after the
current one, so `remaining = 0` is `attempt === maxRetries`.  The second
component lists the backoff delays actually slept, in order. -/
def retryAux (fn : Nat → Except JsError α) (baseDelay : Nat) :
    Nat → Nat → Except JsError α × List Nat
  | attempt, 0 => (fn attempt, [])
  | attempt, remaining + 1 =>
    match fn attempt with
    | .ok v => (.ok v, [])
    | .error e =>
      if isRetryable e then
        let d := baseDelay * 2 ^ (attempt - 1)
        let rec' := retryAux fn baseDelay (attempt + 1) remaining
        (rec'.1, d :: rec'.2)
      else (.error e, [])

/-- `retryWithBackoff` from the gemini module: up to `maxRetries` attempts,
retrying retryable failures after `baseDelay * 2 ^ (attempt - 1)`
milliseconds.  With `maxRetries = 0` the loop body never runs and the
trailing `throw new Error("Max retries exceeded")` is reached. -/
def retryWithBackoff (fn : Nat → Except JsError α) (maxRetries baseDelay : Nat) :
    Except JsError α × List Nat :=
  if maxRetries = 0 then (.error (strErr "Max retries exceeded"), [])
  else retryAux fn baseDelay 1 (maxRetries - 1)

/-- Worker for `generateWithFallback`: try each model in order under
`retryWithBackoff` (3 attempts, base delay 1000), remembering the last error;
when the list is exhausted, throw `lastError` (or `All models failed` when no
model was ever tried).  The trace records each tried model's backoff delays. -/
def fallbackAux (lastError : Option JsError) (trace : List (List Nat)) :
    List (Nat → Except JsError α) → Except JsError α × List (List Nat)
  | [] =>
    (.error (match lastError with
              | some e => e
              | none => strErr "All models failed"), trace)
  | m :: rest =>
    match retryWithBackoff m 3 1000 with
    | (.ok v, ds) => (.ok v, trace ++ [ds])
    | (.error e, ds) => fallbackAux (some e) (trace ++ [ds]) rest

/-- `generateWithFallback` from `src/unnamed/part_001`: each model behaviour
maps the attempt number to that attempt's outcome. -/
def generateWithFallback (models : List (Nat → Except JsError α)) :
    Except JsError α × List (List Nat) :=
  fallbackAux none [] models

/-- `generateEmbedding` from the gemini module: one provider call whose
failure is rewrapped. -/
def generateEmbedding (provider : Str → Except JsError (List Int)) (text : Str) :
    Except JsError (List Int) :=
  match provider text with
  | .ok v => .ok v
  | .error _ => .error (strErr "Failed to generate embedding")

/-- The `Promise.all(texts.map(text => generateEmbedding(text)))` fan-out at
the level of outcomes: the vectors in input order, or the first failure. -/
def embedAll (provider : Str → Except JsError (List Int)) :
    List Str → Except JsError (List (List Int))
  | [] => .ok []
  | t :: ts =>
    match generateEmbedding provider t with
    | .error e => .error e
    | .ok v =>
      match embedAll provider ts with
      | .error e => .error e
      | .ok vs => .ok (v :: vs)

/-- `generateEmbeddings` from the gemini module (identical in
`src/lib/gemini.ts` and `src/unnamed/part_001`): the whole batch succeeds or
the whole batch fails with the rewrapped error. -/
def generateEmbeddings (provider : Str → Except JsError (List Int))
    (texts : List Str) : Except JsError (List (List Int)) :=
  match embedAll provider texts with
  | .ok vs => .ok vs
  | .error _ => .error (strErr "Failed to generate embeddings")

/-- Metadata stored with every vector by `upsertVectors`
(`src/lib/pinecone.ts`). -/
structure RecordMeta where
  text : Str
  userId : Str
  fileName : Str
  pageNumber : Nat
  chunkIndex : Nat
  uploadedAt : Str
deriving DecidableEq, Repr

/-- A record held by the Pinecone index. -/
structure VectorRecord where
  id : Str
  values : List ℚ
  metadata : RecordMeta
deriving DecidableEq, Repr

/-- A match returned by `index.query`. -/
structure PineMatch where
  id : Str
  score : ℚ
  metadata : RecordMeta
deriving DecidableEq, Repr

/-- Insert into a list sorted by descending score (stable). -/
def insertDesc (m : PineMatch) : List PineMatch → List PineMatch
  | [] => [m]
  | x :: xs => if x.score < m.score then m :: x :: xs else x :: insertDesc m xs

/-- Sort matches by descending score. -/
def sortDesc (l : List PineMatch) : List PineMatch :=
  l.foldr insertDesc []

/-- The backend's `index.query({vector, topK, includeMetadata, filter:
{userId: {$eq: userId}}})`: among the stored records whose `userId` metadata
equals the filter value, the `topK` highest-scoring matches under the
backend's similarity `sim`. -/
def indexQuery (sim : List ℚ → List ℚ → ℚ) (store : List VectorRecord)
    (vec : List ℚ) (topK : Nat) (filterUserId : Str) : List PineMatch :=
  ((sortDesc (((store.filter (fun r => r.metadata.userId = filterUserId)).map
    (fun r => PineMatch.mk r.id (sim vec r.values) r.metadata)))).take topK)

/-- `QueryResult` from `src/lib/pinecone.ts`. -/
structure QueryResult where
  id : Str
  text : Str
  score : ℚ
  metadata : RecordMeta
deriving DecidableEq, Repr

/-- JavaScript `x || ""` on a string: the identity, since the only falsy
string is already `""`. -/
def jsOrEmptyStr (s : Str) : Str := if s = [] then [] else s

/-- JavaScript `x || 0` on a number. -/
def jsOrZero (q : ℚ) : ℚ := if q = 0 then 0 else q

/-- `queryVectors` from `src/lib/pinecone.ts`: query the index with an
equality filter on `userId` and repackage each match. -/
def queryVectors (sim : List ℚ → List ℚ → ℚ) (store : List VectorRecord)
    (queryEmbedding : List ℚ) (userId : Str) (topK : Nat) : List QueryResult :=
  (indexQuery sim store queryEmbedding topK userId).map (fun m =>
    QueryResult.mk m.id (jsOrEmptyStr m.metadata.text) (jsOrZero m.score)
      (RecordMeta.mk m.metadata.text (jsOrEmptyStr m.metadata.userId)
        (jsOrEmptyStr m.metadata.fileName) m.metadata.pageNumber
        m.metadata.chunkIndex (jsOrEmptyStr m.metadata.uploadedAt)))

/-- A source entry of the non-streaming query response
(`src/app/api/query/route.ts`). -/
structure SourceEntry where
  id : Nat
  content : Str
  fileName : Str
  pageNumber : Nat
  score : ℚ
deriving DecidableEq, Repr

/-- `Math.round`: round half toward positive infinity. -/
def jsRound (q : ℚ) : ℤ := (q + 1 / 2).floor

/-- `Math.round(score * 100) / 100`: the score rounded to two decimals. -/
def round2 (q : ℚ) : ℚ := (jsRound (q * 100) : ℚ) / 100

/-- The `sources` array of the non-streaming query response:
`content` is `chunk.text.substring(0, 200)` plus an ellipsis marker when the
text is longer than 200 characters. -/
def sourcesOf (relevantChunks : List QueryResult) : List SourceEntry :=
  relevantChunks.enum.map (fun p =>
    SourceEntry.mk (p.1 + 1)
      (p.2.text.take 200 ++
        (if p.2.text.length > 200 then "...".toList else []))
      p.2.metadata.fileName p.2.metadata.pageNumber (round2 p.2.score))

/-- The observable outcome of the upload route. -/
inductive UploadResult where
  | errorResp (status : Nat) (details : Str)
  | success (chunksCreated : Nat)
deriving DecidableEq, Repr

/-- The upload route (`src/unnamed/part_002`) from the point where the file
buffer exists: validate the PDF buffer, process it to chunks (defaults
`chunkSize = 1000`, `overlap = 200`), attach metadata and ids, embed, upsert.
The second component counts invocations of the embedder
(`generateEmbeddings`).  `parse`, `provider` and `upsertOutcome` are the
external pdf-parse, Gemini and Pinecone calls. -/
def ingestPipeline (buffer : List Nat) (parse : Except JsError Str)
    (userId fileName : Str) (now : Nat)
    (provider : Str → Except JsError (List Int))
    (upsertOutcome : Except JsError Unit) : UploadResult × Nat :=
  match validatePDFBuffer buffer with
  | some err => (.errorResp 400 err, 0)
  | none =>
    let sanitized := sanitizeFileName fileName
    match processPDFToChunks buffer 1000 200 parse with
    | .error e => (.errorResp 400 e.message, 0)
    | .ok processedChunks =>
      if processedChunks.length = 0 then
        (.errorResp 400 "No text content could be extracted from the PDF".toList, 0)
      else
        let texts := processedChunks.map (fun c => c.text)
        let _ids := (List.range processedChunks.length).map
          (fun i => generateChunkId userId sanitized i now)
        match generateEmbeddings provider texts with
        | .error e => (.errorResp 500 e.message, 1)
        | .ok _embeddings =>
          match upsertOutcome with
          | .error e => (.errorResp 500 e.message, 1)
          | .ok _ => (.success processedChunks.length, 1)

/-! ## Basic string lemmas -/

lemma head?_dropWhile_not (p : Char → Bool) :
    ∀ (l : Str) (h : Char), (l.dropWhile p).head? = some h → p h = false := by
  intro l
  induction l with
  | nil => simp [List.dropWhile]
  | cons c r ih =>
    intro h hh
    by_cases hc : p c
    · rw [List.dropWhile_cons, if_pos hc] at hh
      exact ih h hh
    · rw [List.dropWhile_cons, if_neg hc] at hh
      simp only [List.head?_cons, Option.some.injEq] at hh
      rw [← hh]
      exact Bool.eq_false_iff.mpr hc

lemma dropWhile_eq_self_of_head (p : Char → Bool) (l : Str)
    (h : ∀ x, l.head? = some x → p x = false) : l.dropWhile p = l := by
  cases l with
  | nil => rfl
  | cons c r =>
    rw [List.dropWhile_cons, if_neg]
    simp [h c rfl]

lemma getLast?_dropWhile_of_ne_nil (p : Char → Bool) (l : Str)
    (h : l.dropWhile p ≠ []) : (l.dropWhile p).getLast? = l.getLast? := by
  conv_rhs => rw [← List.takeWhile_append_dropWhile p l]
  rw [List.getLast?_append]
  cases hd : (l.dropWhile p).getLast? with
  | none => exact absurd (List.getLast?_eq_none_iff.mp hd) h
  | some x => rfl

lemma jsTrim_head (s : Str) (h : Char) :
    (jsTrim s).head? = some h → isJsWs h = false := by
  intro hh
  unfold jsTrim at hh
  rw [List.head?_reverse] at hh
  have hne : (s.dropWhile isJsWs).reverse.dropWhile isJsWs ≠ [] := by
    intro e; rw [e] at hh; simp at hh
  rw [getLast?_dropWhile_of_ne_nil _ _ hne, List.getLast?_reverse] at hh
  exact head?_dropWhile_not isJsWs s h hh

lemma jsTrim_last (s : Str) (h : Char) :
    (jsTrim s).getLast? = some h → isJsWs h = false := by
  intro hh
  unfold jsTrim at hh
  rw [List.getLast?_reverse] at hh
  exact head?_dropWhile_not _ _ h hh

lemma jsTrim_eq_self_of (s : Str)
    (hh : ∀ x, s.head? = some x → isJsWs x = false)
    (hl : ∀ x, s.getLast? = some x → isJsWs x = false) : jsTrim s = s := by
  unfold jsTrim
  rw [dropWhile_eq_self_of_head _ _ hh, dropWhile_eq_self_of_head, List.reverse_reverse]
  intro x hx
  rw [List.head?_reverse] at hx
  exact hl x hx

/-- `jsTrim` is idempotent. -/
lemma jsTrim_idem (s : Str) : jsTrim (jsTrim s) = jsTrim s :=
  jsTrim_eq_self_of _ (jsTrim_head s) (jsTrim_last s)

lemma jsTrim_eq_nil_iff (s : Str) :
    jsTrim s = [] ↔ ∀ c ∈ s, isJsWs c = true := by
  constructor
  · intro h c hc
    unfold jsTrim at h
    rw [List.reverse_eq_nil_iff, List.dropWhile_eq_nil_iff] at h
    have hx : ∀ d ∈ s.dropWhile isJsWs, isJsWs d = true := by
      intro d hd
      exact h d (List.mem_reverse.mpr hd)
    rw [← List.takeWhile_append_dropWhile isJsWs s] at hc
    rcases List.mem_append.mp hc with h1 | h2
    · exact List.mem_takeWhile_imp h1
    · exact hx c h2
  · intro h
    unfold jsTrim
    rw [List.dropWhile_eq_nil_iff.mpr h]
    rfl

/-- Every character of every piece produced by the run splitter comes from
the input (or from the pending piece). -/
lemma mem_jsSplitRunsAux (p : Char → Bool) :
    ∀ (l : Str) (b : Bool) (piece w : Str), w ∈ jsSplitRunsAux p l b piece →
      ∀ c ∈ w, c ∈ l ∨ c ∈ piece := by
  intro l
  induction l with
  | nil =>
    intro b piece w hw c hc
    cases b with
    | true => simp [jsSplitRunsAux] at hw; subst hw; simp at hc
    | false =>
      simp [jsSplitRunsAux] at hw; subst hw
      exact Or.inr (List.mem_reverse.mp hc)
  | cons a r ih =>
    intro b piece w hw c hc
    cases b with
    | true =>
      by_cases hp : p a
      · simp only [jsSplitRunsAux, if_pos hp] at hw
        rcases ih true [] w hw c hc with h | h
        · exact Or.inl (List.mem_cons_of_mem a h)
        · simp at h
      · simp only [jsSplitRunsAux, if_neg hp] at hw
        rcases ih false [a] w hw c hc with h | h
        · exact Or.inl (List.mem_cons_of_mem a h)
        · simp at h; subst h; exact Or.inl (List.mem_cons_self _ _)
    | false =>
      by_cases hp : p a
      · simp only [jsSplitRunsAux, if_pos hp] at hw
        rcases List.mem_cons.mp hw with hw1 | hw2
        · subst hw1; exact Or.inr (List.mem_reverse.mp hc)
        · rcases ih true [] w hw2 c hc with h | h
          · exact Or.inl (List.mem_cons_of_mem a h)
          · simp at h
      · simp only [jsSplitRunsAux, if_neg hp] at hw
        rcases ih false (a :: piece) w hw c hc with h | h
        · exact Or.inl (List.mem_cons_of_mem a h)
        · rcases List.mem_cons.mp h with h1 | h2
          · subst h1; exact Or.inl (List.mem_cons_self _ _)
          · exact Or.inr h2

/-- C6: Chunking the empty string (and any input whose trimmed content is
empty) returns the empty list of chunks — for both the improved chunker
(`src/lib/pdf-processor-improved.ts`) and the legacy one
(`src/lib/pdf-processor.ts`), at every `chunkSize` and `overlap`. -/
theorem splitTextIntoChunks_empty (text : Str) (chunkSize overlap : Nat)
    (h : jsTrim text = []) :
    splitTextIntoChunks text chunkSize overlap = [] ∧
      oldSplitTextIntoChunks text chunkSize overlap = [] := by
  constructor
  · simp [splitTextIntoChunks, h]
  · have hfil : (splitTermRuns text).filter (fun s => !(jsTrim s).isEmpty) = [] := by
      rw [List.filter_eq_nil_iff]
      intro s hs
      have hws : jsTrim s = [] := by
        rw [jsTrim_eq_nil_iff]
        intro c hc
        rcases mem_jsSplitRunsAux isTermChar text false [] s hs c hc with h1 | h1
        · exact (jsTrim_eq_nil_iff text).mp h c h1
        · simp at h1
      simp [hws]
    unfold oldSplitTextIntoChunks
    rw [hfil]
    simp [jsTrim]

/-- Witness for `splitTextIntoChunks_empty` at the two-space input. -/
theorem splitTextIntoChunks_empty_witness :
    splitTextIntoChunks "  ".toList 1000 200 = [] ∧
      oldSplitTextIntoChunks "  ".toList 1000 200 = [] :=
  splitTextIntoChunks_empty "  ".toList 1000 200 (by decide)

/-- Outcome analysis of the embedding fan-out: either every per-text call
succeeded and the results line up one-to-one in order, or some call failed
and the whole batch failed. -/
lemma embedAll_spec (provider : Str → Except JsError (List Int)) :
    ∀ texts : List Str,
      (∃ vs, embedAll provider texts = .ok vs ∧
        List.Forall₂ (fun t v => provider t = .ok v) texts vs) ∨
      ((∃ t ∈ texts, ∃ e, provider t = .error e) ∧
        ∃ e2, embedAll provider texts = .error e2) := by
  intro texts
  induction texts with
  | nil => exact Or.inl ⟨[], rfl, List.Forall₂.nil⟩
  | cons t ts ih =>
    cases hp : provider t with
    | error e =>
      refine Or.inr ⟨⟨t, List.mem_cons_self _ _, e, hp⟩, ?_⟩
      exact ⟨strErr "Failed to generate embedding",
        by simp [embedAll, generateEmbedding, hp]⟩
    | ok v =>
      rcases ih with ⟨vs, he, hf⟩ | ⟨⟨t', ht', e, he'⟩, e2, he2⟩
      · exact Or.inl ⟨v :: vs, by simp [embedAll, generateEmbedding, hp, he],
          List.Forall₂.cons hp hf⟩
      · refine Or.inr ⟨⟨t', List.mem_cons_of_mem t ht', e, he'⟩, e2, ?_⟩
        simp [embedAll, generateEmbedding, hp, he2]

/-- C7: `generateEmbeddings` on `N` texts either returns exactly `N` vectors,
one per input text in order and each of the provider's dimension `D`, or
fails as a whole as soon as any single per-text call fails. -/
theorem generateEmbeddings_all_or_nothing
    (provider : Str → Except JsError (List Int)) (texts : List Str) (D : Nat)
    (hD : ∀ t v, provider t = .ok v → v.length = D) :
    (∃ vs, generateEmbeddings provider texts = .ok vs ∧
      vs.length = texts.length ∧
      List.Forall₂ (fun t v => provider t = .ok v) texts vs ∧
      ∀ v ∈ vs, v.length = D) ∨
    ((∃ t ∈ texts, ∃ e, provider t = .error e) ∧
      ∃ e2, generateEmbeddings provider texts = .error e2) := by
  rcases embedAll_spec provider texts with ⟨vs, he, hf⟩ | ⟨hfail, e2, he2⟩
  · refine Or.inl ⟨vs, by simp [generateEmbeddings, he], hf.length_eq.symm, hf, ?_⟩
    clear he
    induction hf with
    | nil => simp
    | cons h1 _ ih =>
      intro v hv
      rcases List.mem_cons.mp hv with h2 | h2
      · subst h2; exact hD _ _ h1
      · exact ih v h2
  · exact Or.inr ⟨hfail, strErr "Failed to generate embeddings",
      by simp [generateEmbeddings, he2]⟩

/-- Witness for `generateEmbeddings_all_or_nothing` with a constant
three-dimensional provider on two texts. -/
theorem generateEmbeddings_all_or_nothing_witness :
    (∃ vs, generateEmbeddings (fun _ => .ok [0, 1, 2]) ["a".toList, "b".toList] = .ok vs ∧
      vs.length = (["a".toList, "b".toList] : List Str).length ∧
      List.Forall₂ (fun t v => (fun _ : Str => Except.ok (ε := JsError) ([0, 1, 2] : List Int)) t = .ok v)
        ["a".toList, "b".toList] vs ∧
      ∀ v ∈ vs, v.length = 3) ∨
    ((∃ t ∈ (["a".toList, "b".toList] : List Str), ∃ e,
        (fun _ : Str => Except.ok (ε := JsError) ([0, 1, 2] : List Int)) t = .error e) ∧
      ∃ e2, generateEmbeddings (fun _ => .ok [0, 1, 2]) ["a".toList, "b".toList] = .error e2) :=
  generateEmbeddings_all_or_nothing (fun _ => .ok [0, 1, 2]) ["a".toList, "b".toList] 3
    (fun _ v h => by injection h with h2; rw [← h2]; rfl)

/-! ## Retry and fallback (C2) -/

lemma retryAux_zero {α : Type} (fn : Nat → Except JsError α) (b a : Nat) :
    retryAux fn b a 0 = (fn a, []) := rfl

lemma retryAux_one {α : Type} (fn : Nat → Except JsError α) (b a : Nat) :
    retryAux fn b a 1 =
      match fn a with
      | .ok v => (.ok v, [])
      | .error e =>
        if isRetryable e then
          ((retryAux fn b (a + 1) 0).1, b * 2 ^ (a - 1) :: (retryAux fn b (a + 1) 0).2)
        else (.error e, []) := rfl

lemma retryAux_two {α : Type} (fn : Nat → Except JsError α) (b a : Nat) :
    retryAux fn b a 2 =
      match fn a with
      | .ok v => (.ok v, [])
      | .error e =>
        if isRetryable e then
          ((retryAux fn b (a + 1) 1).1, b * 2 ^ (a - 1) :: (retryAux fn b (a + 1) 1).2)
        else (.error e, []) := rfl

lemma fallbackAux_nil {α : Type} (last : Option JsError) (trace : List (List Nat)) :
    fallbackAux (α := α) last trace [] =
      (.error (match last with | some e => e | none => strErr "All models failed"),
        trace) := rfl

lemma fallbackAux_cons {α : Type} (last : Option JsError) (trace : List (List Nat))
    (m : Nat → Except JsError α) (rest : List (Nat → Except JsError α)) :
    fallbackAux last trace (m :: rest) =
      match retryWithBackoff m 3 1000 with
      | (.ok v, ds) => (.ok v, trace ++ [ds])
      | (.error e, ds) => fallbackAux (some e) (trace ++ [ds]) rest := rfl

/-- The outcome of the fallback loop does not depend on the trace
accumulator. -/
lemma fallbackAux_fst {α : Type} :
    ∀ (ms : List (Nat → Except JsError α)) (last : Option JsError)
      (t1 t2 : List (List Nat)),
      (fallbackAux last t1 ms).1 = (fallbackAux last t2 ms).1 := by
  intro ms
  induction ms with
  | nil => intro last t1 t2; rfl
  | cons m rest ih =>
    intro last t1 t2
    rw [fallbackAux_cons, fallbackAux_cons]
    obtain ⟨res, ds⟩ := retryWithBackoff m 3 1000
    cases res with
    | ok v => rfl
    | error e => exact ih (some e) _ _

/-- When every model's bounded retry fails, the fallback loop fails with the
last model's error. -/
lemma fallbackAux_all_fail {α : Type} :
    ∀ (ms : List (Nat → Except JsError α)) (last : Option JsError)
      (trace : List (List Nat)), ms ≠ [] →
      (∀ m ∈ ms, ∃ e, (retryWithBackoff m 3 1000).1 = .error e) →
      ∃ mlast e, ms.getLast? = some mlast ∧
        (retryWithBackoff mlast 3 1000).1 = .error e ∧
        (fallbackAux last trace ms).1 = .error e := by
  intro ms
  induction ms with
  | nil => intro _ _ h; exact absurd rfl h
  | cons m rest ih =>
    intro last trace _ hall
    obtain ⟨e, he⟩ := hall m (List.mem_cons_self _ _)
    rcases hres : retryWithBackoff m 3 1000 with ⟨res, ds⟩
    have he2 := he
    rw [hres] at he2
    simp only at he2
    subst he2
    cases rest with
    | nil =>
      refine ⟨m, e, rfl, he, ?_⟩
      rw [fallbackAux_cons, hres]
      dsimp only
      rw [fallbackAux_nil]
    | cons m2 rest2 =>
      have hall2 : ∀ x ∈ (m2 :: rest2), ∃ e2, (retryWithBackoff x 3 1000).1 = .error e2 :=
        fun x hx => hall x (List.mem_cons_of_mem _ hx)
      obtain ⟨mlast, e3, hl, hre, hfb⟩ := ih (some e) (trace ++ [ds]) (by simp) hall2
      refine ⟨mlast, e3, ?_, hre, ?_⟩
      · rw [List.getLast?_cons_cons]
        exact hl
      · rw [fallbackAux_cons, hres]
        dsimp only
        exact hfb

/-- A model that fails retryably on the first two attempts and succeeds on
the third completes its `retryWithBackoff` run with the value and the two
backoff delays 1000 ms and 2000 ms. -/
lemma retryWithBackoff_two_retries {α : Type} (fn1 : Nat → Except JsError α)
    (v : α) (e1 e2 : JsError)
    (h1 : fn1 1 = .error e1) (h2 : fn1 2 = .error e2) (h3 : fn1 3 = .ok v)
    (hr1 : isRetryable e1 = true) (hr2 : isRetryable e2 = true) :
    retryWithBackoff fn1 3 1000 = (.ok v, [1000, 2000]) := by
  have h0 : retryWithBackoff fn1 3 1000 = retryAux fn1 1000 1 2 := rfl
  rw [h0, retryAux_two, h1]
  dsimp only
  rw [if_pos hr1, retryAux_one]
  norm_num
  rw [h2]
  dsimp only
  rw [if_pos hr2, retryAux_zero]
  norm_num
  rw [h3]

/-- C2: the generation resilience policy.  (1) Per model, at most 3 attempts
are made and the backoff delays slept are an initial segment of
`[1000, 2000]` (base 1000 ms, multiplier 2, hence at most 2 retries).
(2) When a model's bounded retry fails — non-retryably or by exhaustion — the
loop moves on to the next model, remembering the failure as `lastError`.
(3) When every model is exhausted the generation fails carrying the last
model's underlying cause.  (4) When the first model fails retryably twice and
succeeds on its 3rd attempt, the overall result is that model's value, with
exactly the two exponential-backoff delays and no further model tried. -/
theorem generateWithFallback_retry_policy {α : Type} :
    (∀ fn : Nat → Except JsError α, ∃ k, k ≤ 2 ∧
      (retryWithBackoff fn 3 1000).2 = List.take k [1000, 2000]) ∧
    (∀ (m : Nat → Except JsError α) (rest : List (Nat → Except JsError α))
      (e : JsError), (retryWithBackoff m 3 1000).1 = .error e →
      (generateWithFallback (m :: rest)).1 = (fallbackAux (some e) [] rest).1) ∧
    (∀ models : List (Nat → Except JsError α), models ≠ [] →
      (∀ m ∈ models, ∃ e, (retryWithBackoff m 3 1000).1 = .error e) →
      ∃ mlast e, models.getLast? = some mlast ∧
        (retryWithBackoff mlast 3 1000).1 = .error e ∧
        (generateWithFallback models).1 = .error e) ∧
    (∀ (fn1 : Nat → Except JsError α) (rest : List (Nat → Except JsError α))
      (v : α) (e1 e2 : JsError),
      fn1 1 = .error e1 → fn1 2 = .error e2 → fn1 3 = .ok v →
      isRetryable e1 = true → isRetryable e2 = true →
      generateWithFallback (fn1 :: rest) = (.ok v, [[1000, 2000]])) := by
  refine ⟨?_, ?_, ?_, ?_⟩
  · intro fn
    have h0 : retryWithBackoff fn 3 1000 = retryAux fn 1000 1 2 := rfl
    rw [h0, retryAux_two]
    norm_num
    cases h1 : fn 1 with
    | ok v => exact ⟨0, by norm_num, rfl⟩
    | error e1 =>
      dsimp only
      by_cases hr1 : isRetryable e1
      · rw [if_pos hr1, retryAux_one]
        norm_num
        cases h2 : fn 2 with
        | ok v => exact ⟨1, by norm_num, rfl⟩
        | error e2 =>
          dsimp only
          by_cases hr2 : isRetryable e2
          · rw [if_pos hr2, retryAux_zero]
            exact ⟨2, by norm_num, rfl⟩
          · rw [if_neg hr2]
            exact ⟨1, by norm_num, rfl⟩
      · rw [if_neg hr1]
        exact ⟨0, by norm_num, rfl⟩
  · intro m rest e he
    have h0 : generateWithFallback (m :: rest) = fallbackAux none [] (m :: rest) := rfl
    rw [h0, fallbackAux_cons]
    rcases hres : retryWithBackoff m 3 1000 with ⟨res, ds⟩
    rw [hres] at he
    simp only at he
    subst he
    dsimp only
    exact fallbackAux_fst rest (some e) _ _
  · intro models hne hall
    exact fallbackAux_all_fail models none [] hne hall
  · intro fn1 rest v e1 e2 h1 h2 h3 hr1 hr2
    have h0 : generateWithFallback (fn1 :: rest) = fallbackAux none [] (fn1 :: rest) := rfl
    rw [h0, fallbackAux_cons, retryWithBackoff_two_retries fn1 v e1 e2 h1 h2 h3 hr1 hr2]
    rfl

/-- Witness for `generateWithFallback_retry_policy`: a concrete model that is
overloaded twice (HTTP 503) and then answers, and the delay-trace bound for
it. -/
theorem generateWithFallback_retry_policy_witness :
    generateWithFallback
        [fun a => if a < 3 then Except.error (JsError.mk (some 503) [])
                  else Except.ok (42 : Nat)] =
      (.ok 42, [[1000, 2000]]) ∧
    (∃ k, k ≤ 2 ∧
      (retryWithBackoff
        (fun a => if a < 3 then Except.error (JsError.mk (some 503) [])
                  else Except.ok (42 : Nat)) 3 1000).2 = List.take k [1000, 2000]) :=
  ⟨generateWithFallback_retry_policy.2.2.2 _ [] 42 (JsError.mk (some 503) [])
      (JsError.mk (some 503) []) rfl rfl rfl (by decide) (by decide),
    generateWithFallback_retry_policy.1 _⟩

/-! ## Tenant isolation (C1) -/

lemma mem_insertDesc (m x : PineMatch) :
    ∀ l, x ∈ insertDesc m l → x = m ∨ x ∈ l := by
  intro l
  induction l with
  | nil => intro h; simp [insertDesc] at h; exact Or.inl h
  | cons a r ih =>
    intro h
    unfold insertDesc at h
    by_cases hc : a.score < m.score
    · rw [if_pos hc] at h
      rcases List.mem_cons.mp h with h1 | h1
      · exact Or.inl h1
      · exact Or.inr h1
    · rw [if_neg hc] at h
      rcases List.mem_cons.mp h with h1 | h1
      · exact Or.inr (h1 ▸ List.mem_cons_self _ _)
      · rcases ih h1 with h2 | h2
        · exact Or.inl h2
        · exact Or.inr (List.mem_cons_of_mem _ h2)

lemma mem_sortDesc (x : PineMatch) :
    ∀ l, x ∈ sortDesc l → x ∈ l := by
  intro l
  induction l with
  | nil => intro h; simp [sortDesc] at h
  | cons a r ih =>
    intro h
    rcases mem_insertDesc a x (sortDesc r) h with h1 | h1
    · exact h1 ▸ List.mem_cons_self _ _
    · exact List.mem_cons_of_mem _ (ih h1)

lemma jsOrEmptyStr_eq (s : Str) : jsOrEmptyStr s = s := by
  unfold jsOrEmptyStr
  split <;> simp [*]

lemma jsOrZero_eq (q : ℚ) : jsOrZero q = q := by
  unfold jsOrZero
  split <;> simp [*]

/-- Every match returned by the filtered index query carries the filtered
tenant's `userId`. -/
lemma indexQuery_userId (sim : List ℚ → List ℚ → ℚ) (store : List VectorRecord)
    (vec : List ℚ) (topK : Nat) (a : Str) :
    ∀ m ∈ indexQuery sim store vec topK a, m.metadata.userId = a := by
  intro m hm
  unfold indexQuery at hm
  have hm2 : m ∈ sortDesc ((store.filter (fun r => r.metadata.userId = a)).map
      (fun r => PineMatch.mk r.id (sim vec r.values) r.metadata)) :=
    List.mem_of_mem_take hm
  have hm3 := mem_sortDesc m _ hm2
  obtain ⟨r, hr, hrm⟩ := List.mem_map.mp hm3
  have := (List.mem_filter.mp hr).2
  rw [← hrm]
  simpa using this

/-- C1: the vector-store query operation always filters on equality of
`userId`, so querying as tenant `a` never returns a record whose `userId`
metadata is a different tenant `b`'s. -/
theorem queryVectors_tenant_isolation (sim : List ℚ → List ℚ → ℚ)
    (store : List VectorRecord) (vec : List ℚ) (topK : Nat) (a b : Str)
    (hab : b ≠ a) :
    ∀ r ∈ queryVectors sim store vec a topK, r.metadata.userId ≠ b := by
  intro r hr
  unfold queryVectors at hr
  obtain ⟨m, hm, hmr⟩ := List.mem_map.mp hr
  have hu := indexQuery_userId sim store vec topK a m hm
  rw [← hmr]
  simpa [jsOrEmptyStr_eq, hu] using hab.symm

/-- Witness for `queryVectors_tenant_isolation`: a store holding one record
of tenant `a` and one of tenant `b`, queried as `a`. -/
theorem queryVectors_tenant_isolation_witness :
    (QueryResult.mk "id1".toList "hello".toList 0
      (RecordMeta.mk "hello".toList "a".toList "f.pdf".toList 1 0 "t0".toList)).metadata.userId ≠
      "b".toList :=
  queryVectors_tenant_isolation (fun _ _ => 0)
    [VectorRecord.mk "id1".toList [] (RecordMeta.mk "hello".toList "a".toList "f.pdf".toList 1 0 "t0".toList),
     VectorRecord.mk "id2".toList [] (RecordMeta.mk "bye".toList "b".toList "g.pdf".toList 1 0 "t1".toList)]
    [] 5 "a".toList "b".toList (by decide) _ (by decide)

/-! ## Chunking parameter validation (C4) -/

/-- C4: `processPDFToChunks` rejects every call violating
`100 ≤ chunkSize ≤ 10000` or `0 ≤ overlap < chunkSize` before doing any work:
the call fails (never produces chunks), and — whenever the buffer-emptiness
check that precedes it does not fire first — the error is precisely the
chunk-size or overlap validation message. -/
theorem processPDFToChunks_param_validation (buffer : List Nat)
    (chunkSize overlap : Int) (parse : Except JsError Str)
    (hviol : chunkSize < 100 ∨ 10000 < chunkSize ∨ overlap < 0 ∨ chunkSize ≤ overlap) :
    (∃ e, processPDFToChunks buffer chunkSize overlap parse = .error e) ∧
    (buffer ≠ [] →
      processPDFToChunks buffer chunkSize overlap parse =
        .error (strErr "Chunk size must be between 100 and 10000 characters") ∨
      processPDFToChunks buffer chunkSize overlap parse =
        .error (strErr "Overlap must be between 0 and chunk size")) := by
  by_cases hb : buffer = []
  · refine ⟨⟨processCatch (strErr "Invalid PDF buffer provided"), ?_⟩, fun h => absurd hb h⟩
    unfold processPDFToChunks processPDFToChunksRaw
    rw [if_pos hb]
    rfl
  · by_cases hcs : chunkSize < 100 ∨ chunkSize > 10000
    · have hres : processPDFToChunks buffer chunkSize overlap parse =
          .error (strErr "Chunk size must be between 100 and 10000 characters") := by
        unfold processPDFToChunks processPDFToChunksRaw
        rw [if_neg hb, if_pos hcs]
        have : processCatch (strErr "Chunk size must be between 100 and 10000 characters") =
            strErr "Chunk size must be between 100 and 10000 characters" := by decide
        simp [Except.mapError, this]
      exact ⟨⟨_, hres⟩, fun _ => Or.inl hres⟩
    · have hov : overlap < 0 ∨ overlap ≥ chunkSize := by
        rcases hviol with h | h | h | h
        · exact absurd (Or.inl h) hcs
        · exact absurd (Or.inr h) hcs
        · exact Or.inl h
        · exact Or.inr h
      have hres : processPDFToChunks buffer chunkSize overlap parse =
          .error (strErr "Overlap must be between 0 and chunk size") := by
        unfold processPDFToChunks processPDFToChunksRaw
        rw [if_neg hb, if_neg hcs, if_pos hov]
        have : processCatch (strErr "Overlap must be between 0 and chunk size") =
            strErr "Overlap must be between 0 and chunk size" := by decide
        simp [Except.mapError, this]
      exact ⟨⟨_, hres⟩, fun _ => Or.inr hres⟩

/-- Witness for `processPDFToChunks_param_validation` at
`chunkSize = 50 < 100`. -/
theorem processPDFToChunks_param_validation_witness :
    (∃ e, processPDFToChunks [1] 50 0 (.ok []) = .error e) ∧
    (([1] : List Nat) ≠ [] →
      processPDFToChunks [1] 50 0 (.ok []) =
        .error (strErr "Chunk size must be between 100 and 10000 characters") ∨
      processPDFToChunks [1] 50 0 (.ok []) =
        .error (strErr "Overlap must be between 0 and chunk size")) :=
  processPDFToChunks_param_validation [1] 50 0 (.ok []) (by decide)

/-! ## Fail-fast header validation (C3) -/

/-- Counterexample to C3 as stated: the 100-byte buffer starting
`A5 D0 C4 C6` does not begin with the PDF magic bytes `25 50 44 46`
(`"%PDF"`), yet Node's `toString("ascii")` unsets the high bit of each byte,
so both `validatePDFBuffer` and the extraction header check read `"%PDF"` and
the pipeline proceeds; with an extraction outcome that yields text (pdf.js
accepts a header found anywhere in the first 1024 bytes, so garbage-prefixed
PDFs can genuinely parse), the embedder is invoked once, not zero times. -/
theorem ingest_magic_mismatch_still_embeds :
    (([165, 208, 196, 198] ++ List.replicate 96 37 : List Nat).take 4 ≠
      [37, 80, 68, 70]) ∧
    (ingestPipeline ([165, 208, 196, 198] ++ List.replicate 96 37)
      (.ok "Hello.".toList) "u".toList "f".toList 7
      (fun _ => .ok [1]) (.ok ())).2 = 1 := by decide

/-- C3 (amended): for every buffer whose first four bytes, decoded as Node
7-bit ASCII (high bit unset), do not spell `%PDF`, ingestion fails with a 400
validation error before any embedding call is made: the embedder is invoked
zero times, whatever the extraction, embedding and upsert outcomes. -/
theorem ingest_bad_header_failfast (buffer : List Nat)
    (parse : Except JsError Str) (userId fileName : Str) (now : Nat)
    (provider : Str → Except JsError (List Int))
    (upsertOutcome : Except JsError Unit)
    (h : asciiHeader buffer ≠ "%PDF".toList) :
    (ingestPipeline buffer parse userId fileName now provider upsertOutcome).2 = 0 ∧
    ∃ d, (ingestPipeline buffer parse userId fileName now provider upsertOutcome).1 =
      UploadResult.errorResp 400 d := by
  have hv : ∃ err, validatePDFBuffer buffer = some err := by
    unfold validatePDFBuffer
    by_cases h1 : buffer = []
    · exact ⟨_, by rw [if_pos h1]⟩
    · rw [if_neg h1]
      by_cases h2 : buffer.length < 100
      · exact ⟨_, by rw [if_pos h2]⟩
      · rw [if_neg h2, if_pos h]
        exact ⟨_, rfl⟩
  obtain ⟨err, he⟩ := hv
  unfold ingestPipeline
  rw [he]
  exact ⟨rfl, err, rfl⟩

/-- Witness for `ingest_bad_header_failfast` at an all-zero four-byte
buffer. -/
theorem ingest_bad_header_failfast_witness :
    (ingestPipeline [0, 0, 0, 0] (.ok "Hello.".toList) "u".toList "f".toList 7
      (fun _ => .ok [1]) (.ok ())).2 = 0 ∧
    ∃ d, (ingestPipeline [0, 0, 0, 0] (.ok "Hello.".toList) "u".toList "f".toList 7
      (fun _ => .ok [1]) (.ok ())).1 = UploadResult.errorResp 400 d :=
  ingest_bad_header_failfast [0, 0, 0, 0] (.ok "Hello.".toList) "u".toList
    "f".toList 7 (fun _ => .ok [1]) (.ok ()) (by decide)

/-! ## Query response sources (C8) -/

set_option maxRecDepth 8000 in
/-- Counterexample to C8 as stated: on a retrieved chunk whose text has 201
characters, the `content` field is the 200-character prefix **plus** the
three-character ellipsis marker, i.e. 203 characters — more than 200. -/
theorem sourcesOf_content_exceeds_200 :
    ((sourcesOf [QueryResult.mk [] (List.replicate 201 'a') 0
        (RecordMeta.mk [] [] [] 1 0 [])]).map (fun s => s.content.length)) = [203] ∧
      ¬(203 ≤ 200) := by decide

/-- C8 (amended): every entry of the `sources` array carries the
corresponding chunk's text truncated to its first 200 characters with an
ellipsis marker appended when the text is longer (so the field holds at most
203, and at most 200 whenever no marker is added), and the retrieved
similarity score rounded to two decimals via `Math.round(score*100)/100`. -/
theorem sourcesOf_shape (relevantChunks : List QueryResult) :
    ∀ s ∈ sourcesOf relevantChunks,
      s.content.length ≤ 203 ∧
      ∃ c ∈ relevantChunks,
        s.content = c.text.take 200 ++
          (if c.text.length > 200 then "...".toList else []) ∧
        (c.text.length ≤ 200 → s.content.length ≤ 200) ∧
        s.score = round2 c.score ∧
        s.fileName = c.metadata.fileName ∧
        s.pageNumber = c.metadata.pageNumber := by
  intro s hs
  unfold sourcesOf at hs
  obtain ⟨⟨i, c⟩, hic, hsc⟩ := List.mem_map.mp hs
  obtain ⟨hil, hci⟩ := List.mem_enum hic
  have hcm : c ∈ relevantChunks := by
    rw [hci]
    exact List.getElem_mem hil
  have hlen : (c.text.take 200 ++
      (if c.text.length > 200 then "...".toList else [])).length ≤ 203 := by
    rw [List.length_append, List.length_take]
    by_cases h200 : c.text.length > 200
    · rw [if_pos h200]
      simp [min_le_iff]
    · rw [if_neg h200]
      simp only [List.length_nil, Nat.add_zero]
      omega
  refine ⟨?_, c, hcm, ?_, ?_, ?_, ?_, ?_⟩
  · rw [← hsc]
    exact hlen
  · rw [← hsc]
  · intro hshort
    rw [← hsc]
    simp only
    rw [if_neg (by omega), List.length_append, List.length_take]
    simp only [List.length_nil, Nat.add_zero]
    omega
  · rw [← hsc]
  · rw [← hsc]
  · rw [← hsc]

/-- Witness for `sourcesOf_shape` on a single short retrieved chunk. -/
theorem sourcesOf_shape_witness :
    (SourceEntry.mk 1 "hi".toList "f".toList 3 (round2 0)).content.length ≤ 203 ∧
    ∃ c ∈ [QueryResult.mk "i".toList "hi".toList 0
        (RecordMeta.mk "hi".toList "u".toList "f".toList 3 0 "t".toList)],
      (SourceEntry.mk 1 "hi".toList "f".toList 3 (round2 0)).content =
        c.text.take 200 ++ (if c.text.length > 200 then "...".toList else []) ∧
      (c.text.length ≤ 200 →
        (SourceEntry.mk 1 "hi".toList "f".toList 3 (round2 0)).content.length ≤ 200) ∧
      (SourceEntry.mk 1 "hi".toList "f".toList 3 (round2 0)).score = round2 c.score ∧
      (SourceEntry.mk 1 "hi".toList "f".toList 3 (round2 0)).fileName = c.metadata.fileName ∧
      (SourceEntry.mk 1 "hi".toList "f".toList 3 (round2 0)).pageNumber = c.metadata.pageNumber :=
  sourcesOf_shape
    [QueryResult.mk "i".toList "hi".toList 0
      (RecordMeta.mk "hi".toList "u".toList "f".toList 3 0 "t".toList)]
    (SourceEntry.mk 1 "hi".toList "f".toList 3 (round2 0))
    (List.mem_singleton.mpr rfl)

/-! ## Chunk id generation (C9) -/

/-- Decimal rendering decoded back to the number. -/
def decodeNat (s : Str) : Nat :=
  List.foldl (fun a c => a * 10 + (c.toNat - 48)) 0 s

lemma digitChar_toNat (n : Nat) (h : n < 10) : (digitChar n).toNat = 48 + n := by
  interval_cases n <;> decide

lemma digitChar_ne_dash (n : Nat) : digitChar n ≠ '-' := by
  unfold digitChar
  split <;> decide

lemma decodeNat_append_digit (s : Str) (c : Char) :
    decodeNat (s ++ [c]) = decodeNat s * 10 + (c.toNat - 48) := by
  unfold decodeNat
  rw [List.foldl_append]
  rfl

lemma decodeNat_natDigitsAux :
    ∀ (fuel n : Nat), n < fuel → decodeNat (natDigitsAux fuel n) = n := by
  intro fuel
  induction fuel with
  | zero => intro n h; omega
  | succ f ih =>
    intro n h
    unfold natDigitsAux
    by_cases h10 : n < 10
    · rw [if_pos h10]
      show decodeNat [digitChar n] = n
      unfold decodeNat
      simp [digitChar_toNat n h10]
    · rw [if_neg h10]
      have hdiv : n / 10 < n := Nat.div_lt_self (by omega) (by omega)
      rw [decodeNat_append_digit, ih (n / 10) (by omega),
        digitChar_toNat (n % 10) (Nat.mod_lt n (by omega))]
      omega

lemma decodeNat_natDigits (n : Nat) : decodeNat (natDigits n) = n :=
  decodeNat_natDigitsAux (n + 1) n (Nat.lt_succ_self n)

lemma natDigits_inj {m n : Nat} (h : natDigits m = natDigits n) : m = n := by
  have := decodeNat_natDigits m
  rw [h, decodeNat_natDigits n] at this
  exact this.symm

lemma dash_notin_natDigitsAux : ∀ (fuel n : Nat), '-' ∉ natDigitsAux fuel n := by
  intro fuel
  induction fuel with
  | zero => intro n h; simp [natDigitsAux] at h
  | succ f ih =>
    intro n h
    unfold natDigitsAux at h
    by_cases h10 : n < 10
    · rw [if_pos h10] at h
      exact digitChar_ne_dash n (List.mem_singleton.mp h).symm
    · rw [if_neg h10] at h
      rcases List.mem_append.mp h with h1 | h1
      · exact ih (n / 10) h1
      · exact digitChar_ne_dash (n % 10) (List.mem_singleton.mp h1).symm

lemma dash_notin_natDigits (n : Nat) : '-' ∉ natDigits n :=
  dash_notin_natDigitsAux (n + 1) n

/-- Splitting at a separator character occurring in neither left part is
unambiguous. -/
lemma append_sep_inj :
    ∀ (a c b d : Str), '-' ∉ a → '-' ∉ c →
      a ++ '-' :: b = c ++ '-' :: d → a = c ∧ b = d := by
  intro a
  induction a with
  | nil =>
    intro c b d _ hc h
    cases c with
    | nil => simpa using h
    | cons x c2 =>
      simp only [List.nil_append, List.cons_append, List.cons.injEq] at h
      exact absurd (h.1 ▸ List.mem_cons_self _ _) hc
  | cons x a2 ih =>
    intro c b d ha hc h
    cases c with
    | nil =>
      simp only [List.cons_append, List.nil_append, List.cons.injEq] at h
      exact absurd (h.1 ▸ List.mem_cons_self _ _) ha
    | cons y c2 =>
      simp only [List.cons_append, List.cons.injEq] at h
      obtain ⟨hxy, h2⟩ := h
      have ha2 : '-' ∉ a2 := fun hm => ha (List.mem_cons_of_mem _ hm)
      have hc2 : '-' ∉ c2 := fun hm => hc (List.mem_cons_of_mem _ hm)
      obtain ⟨he, hbd⟩ := ih c2 b d ha2 hc2 h2
      exact ⟨by rw [hxy, he], hbd⟩

lemma rev_id_shape (f di dt : Str) :
    (f ++ '-' :: (di ++ '-' :: dt)).reverse =
      dt.reverse ++ '-' :: (di.reverse ++ '-' :: f.reverse) := by
  simp

/-- Counterexample to C9 as stated: the id concatenates its components with
`-`, and filename sanitisation keeps `-`, so the two distinct tuples
`("a", "b-c", 1, 5)` and `("a-b", "c", 1, 5)` produce the same id
`a-b-c-1-5`. -/
theorem generateChunkId_collision :
    generateChunkId "a".toList "b-c".toList 1 5 =
      generateChunkId "a-b".toList "c".toList 1 5 ∧
    ¬("a".toList = "a-b".toList ∧ "b-c".toList = "c".toList) := by decide

/-- C9 (amended): `generateChunkId` is stable (it is a pure function of the
tuple, the `Date.now()` timestamp being passed explicitly), and it is
injective on tuples whose `userId` contains no hyphen and whose `fileName`
consists only of characters kept by sanitisation; without these restrictions
distinct tuples can collide, as `generateChunkId_collision` shows. -/
theorem generateChunkId_inj (u1 f1 : Str) (i1 t1 : Nat) (u2 f2 : Str) (i2 t2 : Nat)
    (hu1 : '-' ∉ u1) (hu2 : '-' ∉ u2)
    (hf1 : sanitizeFileName f1 = f1) (hf2 : sanitizeFileName f2 = f2)
    (h : generateChunkId u1 f1 i1 t1 = generateChunkId u2 f2 i2 t2) :
    u1 = u2 ∧ f1 = f2 ∧ i1 = i2 ∧ t1 = t2 := by
  unfold generateChunkId at h
  rw [hf1, hf2] at h
  obtain ⟨huu, hrest⟩ := append_sep_inj u1 u2 _ _ hu1 hu2 h
  have hrev : (f1 ++ '-' :: (natDigits i1 ++ '-' :: natDigits t1)).reverse =
      (f2 ++ '-' :: (natDigits i2 ++ '-' :: natDigits t2)).reverse := by
    rw [hrest]
  rw [rev_id_shape, rev_id_shape] at hrev
  have hdt1 : '-' ∉ (natDigits t1).reverse := fun hm =>
    dash_notin_natDigits t1 (List.mem_reverse.mp hm)
  have hdt2 : '-' ∉ (natDigits t2).reverse := fun hm =>
    dash_notin_natDigits t2 (List.mem_reverse.mp hm)
  obtain ⟨htt, hrest2⟩ := append_sep_inj _ _ _ _ hdt1 hdt2 hrev
  have hdi1 : '-' ∉ (natDigits i1).reverse := fun hm =>
    dash_notin_natDigits i1 (List.mem_reverse.mp hm)
  have hdi2 : '-' ∉ (natDigits i2).reverse := fun hm =>
    dash_notin_natDigits i2 (List.mem_reverse.mp hm)
  obtain ⟨hii, hff⟩ := append_sep_inj _ _ _ _ hdi1 hdi2 hrest2
  refine ⟨huu, ?_, ?_, ?_⟩
  · exact List.reverse_inj.mp hff
  · exact natDigits_inj (List.reverse_inj.mp hii)
  · exact natDigits_inj (List.reverse_inj.mp htt)

/-- Witness for `generateChunkId_inj` on a hyphen-free user id and a
sanitisation-stable file name. -/
theorem generateChunkId_inj_witness :
    "u7".toList = "u7".toList ∧ "doc.pdf".toList = "doc.pdf".toList ∧
      (3 : Nat) = 3 ∧ (99 : Nat) = 99 :=
  generateChunkId_inj "u7".toList "doc.pdf".toList 3 99 "u7".toList
    "doc.pdf".toList 3 99 (by decide) (by decide) (by decide) (by decide) rfl

/-! ## Text cleaning (C10) -/

/-- Two adjacent characters are never both whitespace. -/
def NoWsPair (a b : Char) : Prop := isJsWs a = false ∨ isJsWs b = false

/-- After skipping a whitespace run, the next character emitted is not
whitespace. -/
lemma collapseWsAux_head_true :
    ∀ (l : Str) (h : Char), (collapseWsAux true l).head? = some h →
      isJsWs h = false := by
  intro l
  induction l with
  | nil => intro h hh; simp [collapseWsAux] at hh
  | cons c r ih =>
    intro h hh
    by_cases hc : isJsWs c
    · rw [show collapseWsAux true (c :: r) = if isJsWs c then collapseWsAux true r
          else c :: collapseWsAux false r from rfl, if_pos hc] at hh
      exact ih h hh
    · rw [show collapseWsAux true (c :: r) = if isJsWs c then collapseWsAux true r
          else c :: collapseWsAux false r from rfl, if_neg hc] at hh
      simp only [List.head?_cons, Option.some.injEq] at hh
      rw [← hh]
      exact Bool.eq_false_iff.mpr hc

/-- Every whitespace character surviving whitespace collapsing is a plain
space. -/
lemma collapseWsAux_ws_space :
    ∀ (l : Str) (b : Bool) (c : Char), c ∈ collapseWsAux b l →
      isJsWs c = true → c = ' ' := by
  intro l
  induction l with
  | nil => intro b c hc; simp [collapseWsAux] at hc
  | cons a r ih =>
    intro b c hc hws
    by_cases ha : isJsWs a
    · cases b with
      | true =>
        rw [show collapseWsAux true (a :: r) = if isJsWs a then collapseWsAux true r
            else a :: collapseWsAux false r from rfl, if_pos ha] at hc
        exact ih true c hc hws
      | false =>
        rw [show collapseWsAux false (a :: r) = if isJsWs a then ' ' :: collapseWsAux true r
            else a :: collapseWsAux false r from rfl, if_pos ha] at hc
        rcases List.mem_cons.mp hc with h1 | h1
        · exact h1
        · exact ih true c h1 hws
    · have hstep : collapseWsAux b (a :: r) = a :: collapseWsAux false r := by
        cases b <;>
          rw [show collapseWsAux _ (a :: r) = if isJsWs a then _ else a :: collapseWsAux false r
              from rfl, if_neg ha]
      rw [hstep] at hc
      rcases List.mem_cons.mp hc with h1 | h1
      · rw [h1] at hws
        exact absurd hws (Bool.not_eq_true _ ▸ (by simpa using ha))
      · exact ih false c h1 hws

/-- Whitespace collapsing leaves no two adjacent whitespace characters. -/
lemma collapseWsAux_chain :
    ∀ (l : Str) (b : Bool), List.Chain' NoWsPair (collapseWsAux b l) := by
  intro l
  induction l with
  | nil => intro b; simp [collapseWsAux]
  | cons a r ih =>
    intro b
    by_cases ha : isJsWs a
    · cases b with
      | true =>
        rw [show collapseWsAux true (a :: r) = if isJsWs a then collapseWsAux true r
            else a :: collapseWsAux false r from rfl, if_pos ha]
        exact ih true
      | false =>
        rw [show collapseWsAux false (a :: r) = if isJsWs a then ' ' :: collapseWsAux true r
            else a :: collapseWsAux false r from rfl, if_pos ha]
        rw [List.chain'_cons']
        exact ⟨fun y hy => Or.inr (collapseWsAux_head_true r y hy), ih true⟩
    · have hstep : collapseWsAux b (a :: r) = a :: collapseWsAux false r := by
        cases b <;>
          rw [show collapseWsAux _ (a :: r) = if isJsWs a then _ else a :: collapseWsAux false r
              from rfl, if_neg ha]
      rw [hstep, List.chain'_cons']
      exact ⟨fun y _ => Or.inl (Bool.eq_false_iff.mpr ha), ih false⟩

/-- Whitespace collapsing introduces no character beyond the input's and the
space. -/
lemma collapseWsAux_mem :
    ∀ (l : Str) (b : Bool) (c : Char), c ∈ collapseWsAux b l →
      c ∈ l ∨ c = ' ' := by
  intro l
  induction l with
  | nil => intro b c hc; simp [collapseWsAux] at hc
  | cons a r ih =>
    intro b c hc
    by_cases ha : isJsWs a
    · cases b with
      | true =>
        rw [show collapseWsAux true (a :: r) = if isJsWs a then collapseWsAux true r
            else a :: collapseWsAux false r from rfl, if_pos ha] at hc
        rcases ih true c hc with h | h
        · exact Or.inl (List.mem_cons_of_mem a h)
        · exact Or.inr h
      | false =>
        rw [show collapseWsAux false (a :: r) = if isJsWs a then ' ' :: collapseWsAux true r
            else a :: collapseWsAux false r from rfl, if_pos ha] at hc
        rcases List.mem_cons.mp hc with h1 | h1
        · exact Or.inr h1
        · rcases ih true c h1 with h | h
          · exact Or.inl (List.mem_cons_of_mem a h)
          · exact Or.inr h
    · have hstep : collapseWsAux b (a :: r) = a :: collapseWsAux false r := by
        cases b <;>
          rw [show collapseWsAux _ (a :: r) = if isJsWs a then _ else a :: collapseWsAux false r
              from rfl, if_neg ha]
      rw [hstep] at hc
      rcases List.mem_cons.mp hc with h1 | h1
      · exact Or.inl (h1 ▸ List.mem_cons_self _ _)
      · rcases ih false c h1 with h | h
        · exact Or.inl (List.mem_cons_of_mem a h)
        · exact Or.inr h

/-- Whitespace collapsing is the identity on strings whose whitespace is
already collapsed (isolated single spaces). -/
lemma collapseWsAux_id :
    ∀ l : Str, List.Chain' NoWsPair l → (∀ c ∈ l, isJsWs c = true → c = ' ') →
      collapseWsAux false l = l ∧
      ((∀ h, l.head? = some h → isJsWs h = false) → collapseWsAux true l = l) := by
  intro l
  induction l with
  | nil => intro _ _; exact ⟨rfl, fun _ => rfl⟩
  | cons c r ih =>
    intro hchain hsp
    obtain ⟨hrel, hchain2⟩ := List.chain'_cons'.mp hchain
    have hsp2 : ∀ x ∈ r, isJsWs x = true → x = ' ' :=
      fun x hx => hsp x (List.mem_cons_of_mem c hx)
    obtain ⟨ihf, iht⟩ := ih hchain2 hsp2
    by_cases hc : isJsWs c
    · have hceq : c = ' ' := hsp c (List.mem_cons_self _ _) hc
      have hheadr : ∀ h, r.head? = some h → isJsWs h = false := by
        intro h hh
        rcases hrel h hh with h1 | h1
        · rw [hc] at h1; cases h1
        · exact h1
      constructor
      · rw [show collapseWsAux false (c :: r) = if isJsWs c then ' ' :: collapseWsAux true r
            else c :: collapseWsAux false r from rfl, if_pos hc, iht hheadr, hceq]
      · intro hhead
        have := hhead c rfl
        rw [hc] at this
        cases this
    · have h1 : collapseWsAux false (c :: r) = c :: collapseWsAux false r := by
        rw [show collapseWsAux false (c :: r) = if isJsWs c then ' ' :: collapseWsAux true r
            else c :: collapseWsAux false r from rfl, if_neg hc]
      have h2 : collapseWsAux true (c :: r) = c :: collapseWsAux false r := by
        rw [show collapseWsAux true (c :: r) = if isJsWs c then collapseWsAux true r
            else c :: collapseWsAux false r from rfl, if_neg hc]
      exact ⟨by rw [h1, ihf], fun _ => by rw [h2, ihf]⟩

lemma replaceCRLF_id : ∀ l : Str, '\r' ∉ l → replaceCRLF l = l := by
  intro l
  induction l with
  | nil => intro _; rfl
  | cons c r ih =>
    intro h
    have hc : ¬(c = '\r') := fun e => h (e ▸ List.mem_cons_self _ _)
    have hr : '\r' ∉ r := fun hm => h (List.mem_cons_of_mem c hm)
    cases r with
    | nil => rfl
    | cons d r2 =>
      rw [show replaceCRLF (c :: d :: r2) = if c = '\r' ∧ d = '\n' then
          '\n' :: replaceCRLF r2 else c :: replaceCRLF (d :: r2) from rfl,
        if_neg (fun hand => hc hand.1), ih hr]

lemma mapCR_id (l : Str) (h : '\r' ∉ l) : mapCR l = l := by
  unfold mapCR
  rw [List.map_congr_left (g := id), List.map_id]
  intro a ha
  simp only [id]
  rw [if_neg]
  intro e
  exact h (e ▸ ha)

lemma removeCtrl_id (l : Str) (h : ∀ c ∈ l, isCtrlRemoved c = false) :
    removeCtrl l = l := by
  unfold removeCtrl
  rw [List.filter_eq_self]
  intro a ha
  simp [h a ha]

lemma collapseNL3Aux_id :
    ∀ (l : Str) (run : Nat), '\n' ∉ l → collapseNL3Aux run l = l := by
  intro l
  induction l with
  | nil => intro run _; rfl
  | cons c r ih =>
    intro run h
    have hc : ¬(c = '\n') := fun e => h (e ▸ List.mem_cons_self _ _)
    have hr : '\n' ∉ r := fun hm => h (List.mem_cons_of_mem c hm)
    rw [show collapseNL3Aux run (c :: r) = if c = '\n' then
        (if run < 2 then '\n' :: collapseNL3Aux (run + 1) r else collapseNL3Aux run r)
        else c :: collapseNL3Aux 0 r from rfl, if_neg hc, ih 0 hr]

lemma collapseNL3_id (l : Str) (h : '\n' ∉ l) : collapseNL3 l = l :=
  collapseNL3Aux_id l 0 h

/-- The trim of a string is an infix of it. -/
lemma jsTrim_infix (s : Str) : jsTrim s <:+: s := by
  have h1 : s.dropWhile isJsWs <:+ s := List.dropWhile_suffix isJsWs
  have h2 : (s.dropWhile isJsWs).reverse.dropWhile isJsWs <:+
      (s.dropWhile isJsWs).reverse := List.dropWhile_suffix isJsWs
  have h3 : jsTrim s <+: s.dropWhile isJsWs := by
    unfold jsTrim
    rw [← List.reverse_prefix] at h2
    simpa using h2
  exact h3.isInfix.trans h1.isInfix

/-- Counterexample to C10 as stated: `cleanText` is not idempotent.  Control
characters are removed only after whitespace collapsing, so `"x \x00 y"`
cleans to `"x  y"` (two adjacent spaces), which a second cleaning collapses
to `"x y"`. -/
theorem cleanText_not_idempotent :
    cleanText "x \x00 y".toList = "x  y".toList ∧
      cleanText (cleanText "x \x00 y".toList) ≠ cleanText "x \x00 y".toList := by
  decide

/-- C10 (amended): the output of `cleanText` never has leading or trailing
whitespace, and `cleanText` is idempotent on inputs free of the control
characters it removes; on general inputs idempotence fails
(`cleanText_not_idempotent`). -/
theorem cleanText_trimmed_and_conditionally_idempotent (s : Str) :
    jsTrim (cleanText s) = cleanText s ∧
    ((∀ c ∈ s, isCtrlRemoved c = false) →
      cleanText (cleanText s) = cleanText s) := by
  constructor
  · by_cases hs : s = []
    · rw [hs]
      rfl
    · rw [cleanText, if_neg hs, jsTrim_idem]
  · intro hctrl
    by_cases hs : s = []
    · rw [hs]
      rfl
    · set u := collapseWs s with hu
      have hA1 : List.Chain' NoWsPair u := collapseWsAux_chain s false
      have hA2 : ∀ c ∈ u, isJsWs c = true → c = ' ' := collapseWsAux_ws_space s false
      have hA3 : ∀ c ∈ u, isCtrlRemoved c = false := by
        intro c hc
        rcases collapseWsAux_mem s false c hc with h | h
        · exact hctrl c h
        · rw [h]; decide
      have hA4 : '\r' ∉ u := by
        intro hm
        have := hA2 '\r' hm (by decide)
        simp at this
      have hA5 : '\n' ∉ u := by
        intro hm
        have := hA2 '\n' hm (by decide)
        simp at this
      have hclean : cleanText s = jsTrim u := by
        rw [cleanText, if_neg hs, ← hu, removeCtrl_id u hA3, replaceCRLF_id u hA4,
          mapCR_id u hA4, collapseNL3_id u hA5]
      set t := jsTrim u with htdef
      have htinf : t <:+: u := jsTrim_infix u
      have hB1 : List.Chain' NoWsPair t := hA1.infix htinf
      have hB2 : ∀ c ∈ t, isJsWs c = true → c = ' ' :=
        fun c hc => hA2 c (List.IsInfix.mem hc htinf)
      have hB3 : ∀ c ∈ t, isCtrlRemoved c = false :=
        fun c hc => hA3 c (List.IsInfix.mem hc htinf)
      have hB4 : '\r' ∉ t := fun hm => hA4 (List.IsInfix.mem hm htinf)
      have hB5 : '\n' ∉ t := fun hm => hA5 (List.IsInfix.mem hm htinf)
      have htrim : jsTrim t = t := jsTrim_idem u
      rw [hclean]
      by_cases ht : t = []
      · rw [ht]
        rfl
      · have hcoll : collapseWs t = t := (collapseWsAux_id t hB1 hB2).1
        rw [cleanText, if_neg ht, hcoll, removeCtrl_id t hB3, replaceCRLF_id t hB4,
          mapCR_id t hB4, collapseNL3_id t hB5, htrim]

/-- Witness for `cleanText_trimmed_and_conditionally_idempotent` on a
control-free input with stray spacing. -/
theorem cleanText_trimmed_idempotent_witness :
    jsTrim (cleanText " a  b ".toList) = cleanText " a  b ".toList ∧
      cleanText (cleanText " a  b ".toList) = cleanText " a  b ".toList :=
  ⟨(cleanText_trimmed_and_conditionally_idempotent " a  b ".toList).1,
    (cleanText_trimmed_and_conditionally_idempotent " a  b ".toList).2 (by decide)⟩

/-! ## Chunker invariants (C5) -/

lemma jsTrim_nil : jsTrim ([] : Str) = [] := rfl

/-- Gluing two trimmed nonempty strings with a space is trimmed. -/
lemma trimStable_append {a b : Str} (ha : jsTrim a = a) (hb : jsTrim b = b)
    (hna : a ≠ []) (hnb : b ≠ []) : jsTrim (a ++ ' ' :: b) = a ++ ' ' :: b := by
  apply jsTrim_eq_self_of
  · intro x hx
    rw [List.head?_append_of_ne_nil a hna] at hx
    have hx2 : (jsTrim a).head? = some x := by rw [ha]; exact hx
    exact jsTrim_head a x hx2
  · intro x hx
    rw [List.getLast?_append] at hx
    have hgl : (' ' :: b).getLast? = b.getLast? := by
      cases b with
      | nil => exact absurd rfl hnb
      | cons y b2 => exact List.getLast?_cons_cons
    rw [hgl] at hx
    cases hbl : b.getLast? with
    | none =>
      rw [hbl] at hx
      simp only [Option.none_or] at hx
      exact absurd (List.getLast?_eq_none_iff.mp hbl) hnb
    | some y =>
      rw [hbl] at hx
      rw [show (some y).or a.getLast? = some y from rfl] at hx
      simp only [Option.some.injEq] at hx
      have hy2 : (jsTrim b).getLast? = some y := by rw [hb]; exact hbl
      rw [← hx]
      exact jsTrim_last b y hy2

/-- Pieces produced by the run splitter on a trimmed input: nonempty and free
of separator characters. -/
lemma jsSplitRunsAux_sound (p : Char → Bool) :
    ∀ (l : Str) (inSep : Bool) (piece : Str),
      (∀ c ∈ piece, p c = false) →
      (∀ x, l.getLast? = some x → p x = false) →
      (l = [] → inSep = false ∧ piece ≠ []) →
      (inSep = false → piece ≠ [] ∨ (∀ x, l.head? = some x → p x = false)) →
      ∀ w ∈ jsSplitRunsAux p l inSep piece, w ≠ [] ∧ ∀ c ∈ w, p c = false := by
  intro l
  induction l with
  | nil =>
    intro inSep piece hpiece _ hnil _ w hw
    obtain ⟨hsep, hne⟩ := hnil rfl
    subst hsep
    simp only [jsSplitRunsAux, List.mem_singleton] at hw
    subst hw
    constructor
    · simpa using hne
    · intro c hc
      exact hpiece c (List.mem_reverse.mp hc)
  | cons a r ih =>
    intro inSep piece hpiece hlast hnil hsep0 w hw
    have hrne : p a = true → r ≠ [] := by
      intro hpa he
      subst he
      have := hlast a rfl
      rw [this] at hpa
      cases hpa
    have hlast2 : r ≠ [] → ∀ x, r.getLast? = some x → p x = false := by
      intro hne x hx
      apply hlast
      cases r with
      | nil => exact absurd rfl hne
      | cons y r2 => rw [List.getLast?_cons_cons]; exact hx
    cases inSep with
    | true =>
      by_cases hpa : p a
      · rw [show jsSplitRunsAux p (a :: r) true piece =
            if p a then jsSplitRunsAux p r true [] else jsSplitRunsAux p r false [a]
            from rfl, if_pos hpa] at hw
        have hrn := hrne hpa
        exact ih true [] (by simp) (hlast2 hrn) (fun he => absurd he hrn)
          (by intro h; cases h) w hw
      · rw [show jsSplitRunsAux p (a :: r) true piece =
            if p a then jsSplitRunsAux p r true [] else jsSplitRunsAux p r false [a]
            from rfl, if_neg hpa] at hw
        refine ih false [a] ?_ ?_ ?_ ?_ w hw
        · intro c hc
          rw [List.mem_singleton.mp hc]
          exact Bool.eq_false_iff.mpr hpa
        · intro x hx
          exact hlast2 (by intro he; subst he; simp at hx) x hx
        · intro _; exact ⟨rfl, by simp⟩
        · intro _; exact Or.inl (by simp)
    | false =>
      by_cases hpa : p a
      · have hne : piece ≠ [] := by
          rcases hsep0 rfl with h | h
          · exact h
          · have := h a rfl
            rw [this] at hpa
            cases hpa
        rw [show jsSplitRunsAux p (a :: r) false piece =
            if p a then piece.reverse :: jsSplitRunsAux p r true []
            else jsSplitRunsAux p r false (a :: piece) from rfl, if_pos hpa] at hw
        rcases List.mem_cons.mp hw with h1 | h1
        · subst h1
          constructor
          · simpa using hne
          · intro c hc
            exact hpiece c (List.mem_reverse.mp hc)
        · have hrn := hrne hpa
          exact ih true [] (by simp) (hlast2 hrn) (fun he => absurd he hrn)
            (by intro h; cases h) w h1
      · rw [show jsSplitRunsAux p (a :: r) false piece =
            if p a then piece.reverse :: jsSplitRunsAux p r true []
            else jsSplitRunsAux p r false (a :: piece) from rfl, if_neg hpa] at hw
        refine ih false (a :: piece) ?_ ?_ ?_ ?_ w hw
        · intro c hc
          rcases List.mem_cons.mp hc with h1 | h1
          · rw [h1]; exact Bool.eq_false_iff.mpr hpa
          · exact hpiece c h1
        · intro x hx
          exact hlast2 (by intro he; subst he; simp at hx) x hx
        · intro _; exact ⟨rfl, by simp⟩
        · intro _; exact Or.inl (by simp)

/-- The words of `split(/\s+/)` on a trimmed nonempty string are nonempty and
whitespace-free. -/
lemma splitWs_sound (s : Str) (hs : jsTrim s = s) (hne : s ≠ []) :
    ∀ w ∈ splitWs s, w ≠ [] ∧ ∀ c ∈ w, isJsWs c = false := by
  intro w hw
  refine jsSplitRunsAux_sound isJsWs s false [] (by simp) ?_ (fun he => absurd he hne)
    (fun _ => Or.inr ?_) w hw
  · intro x hx
    have : (jsTrim s).getLast? = some x := by rw [hs]; exact hx
    exact jsTrim_last s x this
  · intro x hx
    have : (jsTrim s).head? = some x := by rw [hs]; exact hx
    exact jsTrim_head s x this

lemma mem_jsSliceNeg {w : Str} {l : List Str} {k : Nat}
    (h : w ∈ jsSliceNeg l k) : w ∈ l := by
  unfold jsSliceNeg at h
  split at h
  · exact h
  · exact List.mem_of_mem_drop h

lemma joinSpace_ne_nil :
    ∀ pieces : List Str, pieces ≠ [] → (∀ w ∈ pieces, w ≠ []) →
      joinSpace pieces ≠ [] := by
  intro pieces
  induction pieces with
  | nil => intro h; exact absurd rfl h
  | cons w rest ih =>
    intro _ hall
    cases rest with
    | nil =>
      show w ≠ []
      exact hall w (List.mem_cons_self _ _)
    | cons x rest2 =>
      show w ++ ' ' :: joinSpace (x :: rest2) ≠ []
      exact List.append_ne_nil_of_left_ne_nil (hall w (List.mem_cons_self _ _)) _

/-- Joining nonempty whitespace-free words with single spaces yields a
trimmed string. -/
lemma joinSpace_trimStable :
    ∀ pieces : List Str, (∀ w ∈ pieces, w ≠ [] ∧ ∀ c ∈ w, isJsWs c = false) →
      jsTrim (joinSpace pieces) = joinSpace pieces := by
  intro pieces
  induction pieces with
  | nil => intro _; rfl
  | cons w rest ih =>
    intro hall
    have hw := hall w (List.mem_cons_self _ _)
    have hrest : ∀ x ∈ rest, x ≠ [] ∧ ∀ c ∈ x, isJsWs c = false :=
      fun x hx => hall x (List.mem_cons_of_mem w hx)
    cases rest with
    | nil =>
      show jsTrim w = w
      apply jsTrim_eq_self_of
      · intro x hx
        exact hw.2 x (List.mem_of_mem_head? hx)
      · intro x hx
        exact hw.2 x (List.mem_of_mem_getLast? hx)
    | cons y rest2 =>
      show jsTrim (w ++ ' ' :: joinSpace (y :: rest2)) = w ++ ' ' :: joinSpace (y :: rest2)
      have hj := ih hrest
      have hjne : joinSpace (y :: rest2) ≠ [] :=
        joinSpace_ne_nil (y :: rest2) (by simp) (fun x hx => (hrest x hx).1)
      have hwstable : jsTrim w = w := by
        apply jsTrim_eq_self_of
        · intro x hx
          exact hw.2 x (List.mem_of_mem_head? hx)
        · intro x hx
          exact hw.2 x (List.mem_of_mem_getLast? hx)
      exact trimStable_append hwstable hj hw.1 hjne

/-- Loop invariant of the improved chunker: indices are `0, 1, …` in
emission order, pages are non-decreasing and bounded by the current page
variable, the page variable carries the source's re-estimation formula, and
the running buffer is trimmed. -/
def ChunkInv (st : ChunkAcc) : Prop :=
  st.chunks.map ProcessedChunk.chunkIndex = List.range st.idx ∧
  List.Chain' (· ≤ ·) (st.chunks.map ProcessedChunk.pageNumber) ∧
  (∀ c ∈ st.chunks, c.pageNumber ≤ st.page) ∧
  st.page = max 1 ((sumLen st.chunks + st.cur.length + 2499) / 2500) ∧
  jsTrim st.cur = st.cur

/-- The overlap seed of a flush is a trimmed string. -/
lemma overlapTextOf_trimStable (cur : Str) (overlap : Nat)
    (hcur : jsTrim cur = cur) (hne : cur ≠ []) :
    jsTrim (overlapTextOf cur overlap) = overlapTextOf cur overlap := by
  unfold overlapTextOf
  apply joinSpace_trimStable
  intro w hw
  exact splitWs_sound cur hcur hne w (mem_jsSliceNeg hw)

lemma chunkMkPage_page_mono (chunks : List ProcessedChunk) (cur cur2 : Str)
    (idx : Nat) (chunks2 : List ProcessedChunk)
    (h : sumLen chunks + cur.length ≤ sumLen chunks2 + cur2.length) :
    max 1 ((sumLen chunks + cur.length + 2499) / 2500) ≤
      (chunkMkPage chunks2 cur2 idx).page :=
  max_le_max (le_refl 1) (Nat.div_le_div_right (by omega))

/-- One loop iteration preserves the invariant. -/
lemma chunkStep_inv (cs ov : Nat) (st : ChunkAcc) (s : Str) (h : ChunkInv st) :
    ChunkInv (chunkStep cs ov st s) := by
  obtain ⟨h1, h2, h3, h4, h5⟩ := h
  unfold chunkStep
  by_cases hse : (jsTrim s).isEmpty
  · rw [if_pos hse]
    exact ⟨h1, h2, h3, h4, h5⟩
  · rw [if_neg hse]
    have hsne : jsTrim s ≠ [] := by
      intro e
      rw [e] at hse
      exact hse rfl
    have hstrim : jsTrim (jsTrim s) = jsTrim s := jsTrim_idem s
    by_cases hflush : st.cur.length + (jsTrim s).length + 1 > cs ∧ st.cur.length > 0
    · rw [if_pos hflush]
      have hcne : st.cur ≠ [] := by
        intro e
        rw [e] at hflush
        simp at hflush
      have htrimcur : jsTrim st.cur = st.cur := h5
      set pushed := st.chunks ++ [ProcessedChunk.mk (jsTrim st.cur) st.page st.idx]
        with hpushed
      have hsum : sumLen pushed = sumLen st.chunks + st.cur.length := by
        rw [hpushed]
        unfold sumLen
        rw [List.map_append, List.sum_append]
        simp [htrimcur]
      set cur2 := chunkNewCur (overlapTextOf st.cur ov) (jsTrim s) with hcur2
      have hmono : st.page ≤ (chunkMkPage pushed cur2 (st.idx + 1)).page := by
        rw [h4]
        apply chunkMkPage_page_mono
        rw [hsum]
        omega
      refine ⟨?_, ?_, ?_, ?_, ?_⟩
      · show (pushed.map ProcessedChunk.chunkIndex) = List.range (st.idx + 1)
        rw [hpushed, List.map_append, h1, List.range_succ]
        rfl
      · show List.Chain' (· ≤ ·) (pushed.map ProcessedChunk.pageNumber)
        rw [hpushed, List.map_append]
        apply List.Chain'.append h2 (by simp)
        intro x hx y hy
        simp only [List.map_cons, List.map_nil, List.head?_cons,
          Option.mem_def, Option.some.injEq] at hy
        have hxm : x ∈ st.chunks.map ProcessedChunk.pageNumber :=
          List.mem_of_mem_getLast? hx
        obtain ⟨c, hc, hcx⟩ := List.mem_map.mp hxm
        rw [← hy, ← hcx]
        exact h3 c hc
      · show ∀ c ∈ pushed, c.pageNumber ≤ (chunkMkPage pushed cur2 (st.idx + 1)).page
        intro c hc
        rw [hpushed] at hc
        rcases List.mem_append.mp hc with hcm | hcm
        · exact le_trans (h3 c hcm) hmono
        · have : c = ProcessedChunk.mk (jsTrim st.cur) st.page st.idx :=
            List.mem_singleton.mp hcm
          rw [this]
          exact hmono
      · rfl
      · show jsTrim cur2 = cur2
        rw [hcur2]
        unfold chunkNewCur
        by_cases ho : (overlapTextOf st.cur ov).isEmpty
        · rw [if_pos ho]
          exact hstrim
        · rw [if_neg ho]
          apply trimStable_append (overlapTextOf_trimStable st.cur ov h5 hcne)
            hstrim ?_ hsne
          intro e
          rw [e] at ho
          exact ho rfl
    · rw [if_neg hflush]
      set cur2 := if st.cur.isEmpty then jsTrim s else st.cur ++ ' ' :: jsTrim s
        with hcur2
      have hlen : st.cur.length ≤ cur2.length := by
        rw [hcur2]
        by_cases hce : st.cur.isEmpty
        · rw [if_pos hce]
          rw [List.isEmpty_iff.mp hce]
          simp
        · rw [if_neg hce]
          simp
      have hmono : st.page ≤ (chunkMkPage st.chunks cur2 st.idx).page := by
        rw [h4]
        apply chunkMkPage_page_mono
        omega
      refine ⟨h1, h2, ?_, rfl, ?_⟩
      · intro c hc
        exact le_trans (h3 c hc) hmono
      · show jsTrim cur2 = cur2
        rw [hcur2]
        by_cases hce : st.cur.isEmpty
        · rw [if_pos hce]
          exact hstrim
        · rw [if_neg hce]
          apply trimStable_append h5 hstrim ?_ hsne
          intro e
          rw [e] at hce
          exact hce rfl



lemma chunkLoop_inv (cs ov : Nat) :
    ∀ (sentences : List Str) (st : ChunkAcc), ChunkInv st →
      ChunkInv (sentences.foldl (chunkStep cs ov) st) := by
  intro sentences
  induction sentences with
  | nil => intro st h; exact h
  | cons s rest ih =>
    intro st h
    exact ih (chunkStep cs ov st s) (chunkStep_inv cs ov st s h)

/-- C5: chunking any text with `chunkSize = 1000` and `overlap = 200` yields
chunks whose page numbers are non-decreasing in emission order and whose
chunk indices are contiguous from 0 (the i-th emitted chunk has index i). -/
theorem splitTextIntoChunks_pages_and_indices (text : Str) :
    List.Chain' (· ≤ ·)
      ((splitTextIntoChunks text 1000 200).map ProcessedChunk.pageNumber) ∧
    (splitTextIntoChunks text 1000 200).map ProcessedChunk.chunkIndex =
      List.range (splitTextIntoChunks text 1000 200).length := by
  unfold splitTextIntoChunks
  by_cases he : (jsTrim text).isEmpty
  · rw [if_pos he]
    simp
  · rw [if_neg he]
    have hinit : ChunkInv (ChunkAcc.mk [] [] 0 1) := by
      refine ⟨rfl, by simp, by simp, by decide, rfl⟩
    set sentences := (splitSentences text).filter (fun s => !(jsTrim s).isEmpty)
      with hsent
    set st := sentences.foldl (chunkStep 1000 200) (ChunkAcc.mk [] [] 0 1)
      with hst
    obtain ⟨h1, h2, h3, _, _⟩ := chunkLoop_inv 1000 200 sentences _ hinit
    have hlen : st.chunks.length = st.idx := by
      have := congrArg List.length h1
      simpa using this
    by_cases hc : (jsTrim st.cur).isEmpty
    · rw [if_neg (by simp [hc])]
      exact ⟨h2, by rw [h1, hlen]⟩
    · rw [if_pos (by simp [hc])]
      constructor
      · rw [List.map_append]
        apply List.Chain'.append h2 (by simp)
        intro x hx y hy
        simp only [List.map_cons, List.map_nil, List.head?_cons,
          Option.mem_def, Option.some.injEq] at hy
        obtain ⟨c, hcm, hcx⟩ := List.mem_map.mp (List.mem_of_mem_getLast? hx)
        rw [← hy, ← hcx]
        exact h3 c hcm
      · rw [List.map_append, h1, List.length_append, hlen]
        simp [List.range_succ]

end PdfGenius
